import Mathlib

/-!
# LinQ: a shallow embedding of `src/LinQ.hpp`

The header defines three iterator adapters (`WhereIterator`, `SelectIterator`,
`DistinctIterator`), the query handle `Range<T, Iterator>` with its operators, the
refinement `OrderedRange`, and the two `From` overloads.

Modelling conventions.

* A raw pointer / `std::vector` iterator is a block together with an offset (`Ptr`).
  Dereferencing outside the block and incrementing beyond one-past-the-end are
  undefined behaviour, reported as `Fault.undefinedBehaviour`.
* The C++ templates are generic in the iterator type.  Here an iterator type `I` comes
  with a record `IterOps H I T` of its `operator++`, `operator*` and `operator==`.
* `H` is the store of heap objects an iterator reaches through a `std::shared_ptr`
  (the `seen` sets of `DistinctIterator`).  `operator++` may update it, so every
  operation that advances an iterator threads the store.
* Loops over iterators recurse on a fuel counter.  The fuel is taken from
  `IterOps.rem`, a bound on the number of increments an iterator can still perform;
  `Fault.outOfFuel` is returned when it does not suffice.
* `long long` and `size_t` counts are natural numbers: they count elements held in
  memory and cannot overflow.
-/

namespace LinQ

/-- The ways in which running an operator can fail to return a value. -/
inductive Fault where
  /-- Dereferencing or advancing an iterator that is not dereferenceable. -/
  | undefinedBehaviour
  /-- The fuel of a loop of the model ran out. -/
  | outOfFuel
  /-- The exception `throw std::runtime_error(what)`. -/
  | runtimeError (what : String)
  /-- The exception `throw std::out_of_range(what)`. -/
  | outOfRange (what : String)
  deriving DecidableEq

/-- A computation that reads and updates the store `H` and may fail. -/
abbrev Exec (H α : Type) : Type := H → Except Fault (α × H)

/-- Sequencing, as in a method chain `a.F().G()`: run `m`, then `f` on its result, in
the store `m` left behind. -/
def Exec.bind {H α β : Type} (m : Exec H α) (f : α → Exec H β) : Exec H β := fun h =>
  match m h with
  | .error e => .error e
  | .ok (a, h') => f a h'

/-- The operations of a forward iterator type `I` with value type `T`. -/
structure IterOps (H I T : Type) where
  /-- The prefix increment `operator++`. -/
  incr : I → Exec H I
  /-- The dereference `operator*`. -/
  deref : I → Except Fault T
  /-- The comparison `operator==`. -/
  eq : I → I → Bool
  /-- A bound on the number of increments the iterator can still perform. -/
  rem : I → Nat

/-! ## Pointers and `std::vector` iterators -/

/-- A pointer into a contiguous block: `const T*` for `From`, and
`std::vector<T>::iterator` for a materialised buffer. -/
structure Ptr (T : Type) where
  /-- The block pointed into. -/
  buf : List T
  /-- The offset within the block; `buf.length` is one past the end. -/
  pos : Nat

/-- Pointer arithmetic: `++p`, `*p` and `p == q`.  Only pointers into one block are
ever compared, so the comparison is that of the offsets. -/
def Ptr.ops {H T : Type} : IterOps H (Ptr T) T where
  incr := fun p h =>
    if p.pos < p.buf.length then .ok (⟨p.buf, p.pos + 1⟩, h) else .error .undefinedBehaviour
  deref := fun p =>
    match p.buf[p.pos]? with
    | some x => .ok x
    | none => .error .undefinedBehaviour
  eq := fun p q => p.pos == q.pos
  rem := fun p => p.buf.length - p.pos

/-! ## `WhereIterator` (LinQ.hpp 14-52) -/

/-- The members of `WhereIterator<Iterator, Predicate>`. -/
structure WhereIterator (I T : Type) where
  current : I
  «end» : I
  predicate : T → Bool

/-- The loop `while (current != end && !predicate(*current)) ++current;` that the
constructor and `operator++` both run. -/
def WhereIterator.skip {H I T : Type} (ops : IterOps H I T) (e : I) (p : T → Bool) :
    Nat → I → Exec H I
  | 0, _ => fun _ => .error .outOfFuel
  | fuel + 1, cur => fun h =>
    if ops.eq cur e then .ok (cur, h)
    else
      match ops.deref cur with
      | .error f => .error f
      | .ok x =>
        if p x then .ok (cur, h)
        else
          match ops.incr cur h with
          | .error f => .error f
          | .ok (cur', h') => WhereIterator.skip ops e p fuel cur' h'

/-- The constructor `WhereIterator(it, end, pred)`. -/
def WhereIterator.new {H I T : Type} (ops : IterOps H I T) (it e : I) (pred : T → Bool) :
    Exec H (WhereIterator I T) := fun h =>
  match WhereIterator.skip ops e pred (ops.rem it + 1) it h with
  | .error f => .error f
  | .ok (cur, h') => .ok (⟨cur, e, pred⟩, h')

/-- The increment `WhereIterator::operator++`. -/
def WhereIterator.incr {H I T : Type} (ops : IterOps H I T) (w : WhereIterator I T) :
    Exec H (WhereIterator I T) := fun h =>
  match ops.incr w.current h with
  | .error f => .error f
  | .ok (cur, h1) =>
    match WhereIterator.skip ops w.«end» w.predicate (ops.rem cur + 1) cur h1 with
    | .error f => .error f
    | .ok (cur', h2) => .ok (⟨cur', w.«end», w.predicate⟩, h2)

/-- The operations of `WhereIterator`: `operator++`, `operator*` (`*current`) and
`operator==` (`current == other.current`). -/
def WhereIterator.ops {H I T : Type} (ops : IterOps H I T) : IterOps H (WhereIterator I T) T where
  incr := WhereIterator.incr ops
  deref := fun w => ops.deref w.current
  eq := fun w v => ops.eq w.current v.current
  rem := fun w => ops.rem w.current

/-! ## `SelectIterator` (LinQ.hpp 54-84) -/

/-- The members of `SelectIterator<Iterator, Transformer>`. -/
structure SelectIterator (I T U : Type) where
  current : I
  transformer : T → U

/-- The operations of `SelectIterator`: `operator++` (`++current`), `operator*`
(`transformer(*current)`) and `operator==` (`current == other.current`). -/
def SelectIterator.ops {H I T U : Type} (ops : IterOps H I T) :
    IterOps H (SelectIterator I T U) U where
  incr := fun s h =>
    match ops.incr s.current h with
    | .error f => .error f
    | .ok (cur, h') => .ok (⟨cur, s.transformer⟩, h')
  deref := fun s =>
    match ops.deref s.current with
    | .error f => .error f
    | .ok x => .ok (s.transformer x)
  eq := fun s t => ops.eq s.current t.current
  rem := fun s => ops.rem s.current

/-! ## `DistinctIterator` (LinQ.hpp 86-129) -/

/-- The heap cells created by `std::make_shared<std::unordered_set<value_type>>()`.
A cell lists the elements of its set; a `std::shared_ptr` to it is its index. -/
abbrev SeenHeap (T : Type) : Type := List (List T)

/-- The members of `DistinctIterator<Iterator>`; `seen` is the shared pointer. -/
structure DistinctIterator (I : Type) where
  current : I
  «end» : I
  seen : Nat

/-- The loop `while (current != end && seen->count(*current)) ++current;`. -/
def DistinctIterator.skip {H I T : Type} [DecidableEq T] (ops : IterOps H I T) (e : I)
    (seen : Nat) : Nat → I → Exec (H × SeenHeap T) I
  | 0, _ => fun _ => .error .outOfFuel
  | fuel + 1, cur => fun st =>
    if ops.eq cur e then .ok (cur, st)
    else
      match ops.deref cur with
      | .error f => .error f
      | .ok x =>
        match st.2[seen]? with
        | none => .error .undefinedBehaviour
        | some s =>
          if x ∈ s then
            match ops.incr cur st.1 with
            | .error f => .error f
            | .ok (cur', h') => DistinctIterator.skip ops e seen fuel cur' (h', st.2)
          else .ok (cur, st)

/-- The private member `DistinctIterator::advanceToNextUnique`: the skipping loop,
then `if (current != end) seen->insert(*current);`. -/
def DistinctIterator.advanceToNextUnique {H I T : Type} [DecidableEq T] (ops : IterOps H I T)
    (d : DistinctIterator I) : Exec (H × SeenHeap T) (DistinctIterator I) := fun st =>
  match DistinctIterator.skip ops d.«end» d.seen (ops.rem d.current + 1) d.current st with
  | .error f => .error f
  | .ok (cur, st1) =>
    if ops.eq cur d.«end» then .ok (⟨cur, d.«end», d.seen⟩, st1)
    else
      match ops.deref cur with
      | .error f => .error f
      | .ok x =>
        match st1.2[d.seen]? with
        | none => .error .undefinedBehaviour
        | some s => .ok (⟨cur, d.«end», d.seen⟩, (st1.1, st1.2.set d.seen (s.insert x)))

/-- The constructor `DistinctIterator(it, end)`: a fresh `seen` set is allocated, then
`advanceToNextUnique()` runs. -/
def DistinctIterator.new {H I T : Type} [DecidableEq T] (ops : IterOps H I T) (it e : I) :
    Exec (H × SeenHeap T) (DistinctIterator I) := fun st =>
  DistinctIterator.advanceToNextUnique ops ⟨it, e, st.2.length⟩ (st.1, st.2 ++ [[]])

/-- The increment `DistinctIterator::operator++`: `++current; advanceToNextUnique();`. -/
def DistinctIterator.incr {H I T : Type} [DecidableEq T] (ops : IterOps H I T)
    (d : DistinctIterator I) : Exec (H × SeenHeap T) (DistinctIterator I) := fun st =>
  match ops.incr d.current st.1 with
  | .error f => .error f
  | .ok (cur, h') => DistinctIterator.advanceToNextUnique ops ⟨cur, d.«end», d.seen⟩ (h', st.2)

/-- The operations of `DistinctIterator`.  Copying the iterator copies the shared
pointer, so all copies update the same cell of the store. -/
def DistinctIterator.ops {H I T : Type} [DecidableEq T] (ops : IterOps H I T) :
    IterOps (H × SeenHeap T) (DistinctIterator I) T where
  incr := DistinctIterator.incr ops
  deref := fun d => ops.deref d.current
  eq := fun d c => ops.eq d.current c.current
  rem := fun d => ops.rem d.current

/-! ## Standard-library algorithms used by `Range` -/

/-- The loop of `std::distance(first, last)` for a forward iterator:
`while (first != last) { ++first; ++n; }`. -/
def distanceLoop {H I T : Type} (ops : IterOps H I T) (last : I) : Nat → I → Nat → Exec H Nat
  | 0, _, _ => fun _ => .error .outOfFuel
  | fuel + 1, first, n => fun h =>
    if ops.eq first last then .ok (n, h)
    else
      match ops.incr first h with
      | .error f => .error f
      | .ok (first', h') => distanceLoop ops last fuel first' (n + 1) h'

/-- The call `std::distance(first, last)`. -/
def distance {H I T : Type} (ops : IterOps H I T) (first last : I) : Exec H Nat :=
  distanceLoop ops last (ops.rem first + 1) first 0

/-- The loop `for (; it != last; ++it) acc = body(acc, *it);`, which is what a
range-based `for (const auto& item : range)` and `std::copy` expand to. -/
def forLoop {H I T σ : Type} (ops : IterOps H I T) (last : I) (body : σ → T → σ) :
    Nat → I → σ → Exec H σ
  | 0, _, _ => fun _ => .error .outOfFuel
  | fuel + 1, it, acc => fun h =>
    if ops.eq it last then .ok (acc, h)
    else
      match ops.deref it with
      | .error f => .error f
      | .ok x =>
        match ops.incr it h with
        | .error f => .error f
        | .ok (it', h') => forLoop ops last body fuel it' (body acc x) h'

/-- A range-based `for` over `[first, last)` folding `body` into `init`. -/
def forEach {H I T σ : Type} (ops : IterOps H I T) (first last : I) (body : σ → T → σ)
    (init : σ) : Exec H σ :=
  forLoop ops last body (ops.rem first + 1) first init

/-- The range constructor `std::vector<T>(first, last)` for forward iterators: the
storage for `std::distance(first, last)` elements is allocated, then the range is
copied into it; copying more elements than were allocated overruns the storage. -/
def vectorFromRange {H I T : Type} (ops : IterOps H I T) (first last : I) : Exec H (List T) :=
  fun h =>
  match distance ops first last h with
  | .error f => .error f
  | .ok (n, h1) =>
    match forEach ops first last (fun (v : List T) x => v ++ [x]) [] h1 with
    | .error f => .error f
    | .ok (v, h2) => if v.length ≤ n then .ok (v, h2) else .error .undefinedBehaviour

/-- The range constructor `std::unordered_set<T>(first, last)`: every element of the
range is inserted.  A set is represented by the list of its elements. -/
def unorderedSetFromRange {H I T : Type} [DecidableEq T] (ops : IterOps H I T)
    (first last : I) : Exec H (List T) :=
  forEach ops first last (fun (s : List T) x => s.insert x) []

/-- The requirement on the comparison object of `std::sort` and `std::stable_sort`:
it induces a strict weak ordering. -/
structure StrictWeakOrder {T : Type} (comp : T → T → Bool) : Prop where
  irrefl : ∀ a, comp a a = false
  trans : ∀ a b c, comp a b = true → comp b c = true → comp a c = true
  equiv_trans : ∀ a b c, comp a b = false → comp b a = false → comp b c = false →
    comp c b = false → comp a c = false ∧ comp c a = false

/-- An implementation of `std::sort`.  The standard fixes only its contract: for a
strict weak ordering the result is a rearrangement of the input in which no element
compares less than an earlier one; the order of equivalent elements is unspecified. -/
structure StdSort where
  sort : {T : Type} → (T → T → Bool) → List T → List T
  perm : ∀ {T : Type} (comp : T → T → Bool) (l : List T), StrictWeakOrder comp →
    (sort comp l).Perm l
  sorted : ∀ {T : Type} (comp : T → T → Bool) (l : List T), StrictWeakOrder comp →
    (sort comp l).Pairwise (fun a b => comp b a = false)

/-- The algorithm `std::stable_sort`: its contract (sorted, equivalent elements keep
their relative order) determines the result, computed here by insertion. -/
def stableSort {T : Type} (comp : T → T → Bool) (l : List T) : List T :=
  l.insertionSort (fun a b => comp b a = false)

/-- One conforming `std::sort`: insertion sort. -/
def insertionStdSort : StdSort where
  sort := fun comp l => stableSort comp l
  perm := fun comp l _ => List.perm_insertionSort (fun a b => comp b a = false) l
  sorted := fun comp l hc => by
    have htot : IsTotal _ (fun a b => comp b a = false) := ⟨fun a b => by
      cases hab : comp a b
      · exact Or.inr rfl
      · cases hba : comp b a
        · exact Or.inl rfl
        · have := hc.trans a b a hab hba
          rw [hc.irrefl a] at this
          exact absurd this (by simp)⟩
    have htr : IsTrans _ (fun a b => comp b a = false) := ⟨fun a b c hab hbc => by
      cases hca : comp c a
      · rfl
      · exfalso
        cases hcb' : comp c b
        · cases hbc' : comp b c
          · cases hab' : comp a b
            · have := (hc.equiv_trans c b a hcb' hbc' hab hab').1
              rw [hca] at this
              exact absurd this (by simp)
            · have := hc.trans c a b hca hab'
              rw [hcb'] at this
              exact absurd this (by simp)
          · have h1 := hc.trans b c a hbc' hca
            rw [hab] at h1
            exact absurd h1 (by simp)
        · rw [hbc] at hcb'
          exact absurd hcb' (by simp)⟩
    exact List.sorted_insertionSort (fun a b => comp b a = false) l

/-- A `std::map<K, V>`: its entries in ascending key order, keys pairwise distinct. -/
abbrev StdMap (K V : Type) : Type := List (K × V)

/-- The call `map.emplace(k, v)`: the entry is inserted at its place in key order
unless the map already holds an entry with an equivalent key. -/
def StdMap.emplace {K V : Type} [LinearOrder K] : StdMap K V → K → V → StdMap K V
  | [], k, v => [(k, v)]
  | (k', v') :: rest, k, v =>
    if k < k' then (k, v) :: (k', v') :: rest
    else if k' < k then (k', v') :: StdMap.emplace rest k v
    else (k', v') :: rest

/-- The lookup `map.find(k)`, giving the mapped value if there is one. -/
def StdMap.find {K V : Type} [DecidableEq K] (m : StdMap K V) (k : K) : Option V :=
  (List.find? (fun e => decide (e.1 = k)) m).map Prod.snd

/-! ## `Range` (LinQ.hpp 147-525) -/

/-- The members of `Range<T, Iterator>`.  `dataPointer` is the shared buffer of a
materialised range (`none` is `nullptr`); for such a range the iterators point into
that buffer. -/
structure Range (T I : Type) where
  dataPointer : Option (List T)
  beginIndex : I
  endIndex : I

/-- The constructor `Range(Iterator begin, Iterator end)`. -/
def Range.ofIterators {T I : Type} (b e : I) : Range T I := ⟨none, b, e⟩

/-- The constructor `Range(std::shared_ptr<std::vector<T>> data)`. -/
def Range.ofData {T : Type} (data : List T) : Range T (Ptr T) :=
  ⟨some data, ⟨data, 0⟩, ⟨data, data.length⟩⟩

/-- The member `Range::begin`. -/
def Range.begin {T I : Type} (r : Range T I) : I := r.beginIndex

/-- The member `Range::end`. -/
def Range.end {T I : Type} (r : Range T I) : I := r.endIndex

/-- The two overloads of `From`: the range `[collection, collection + N)` of an array,
and `[collection.begin(), collection.end())` of a container. -/
def From {T : Type} (collection : List T) : Range T (Ptr T) :=
  Range.ofIterators ⟨collection, 0⟩ ⟨collection, collection.length⟩

/-- The operator `Range::Where`. -/
def Range.Where {H I T : Type} (ops : IterOps H I T) (r : Range T I) (p : T → Bool) :
    Exec H (Range T (WhereIterator I T)) := fun h =>
  match WhereIterator.new ops r.beginIndex r.endIndex p h with
  | .error f => .error f
  | .ok (b, h1) =>
    match WhereIterator.new ops r.endIndex r.endIndex p h1 with
    | .error f => .error f
    | .ok (e, h2) => .ok (Range.ofIterators b e, h2)

/-- The operator `Range::Select`. -/
def Range.Select {I T U : Type} (r : Range T I) (t : T → U) : Range U (SelectIterator I T U) :=
  Range.ofIterators ⟨r.beginIndex, t⟩ ⟨r.endIndex, t⟩

/-- The operator `Range::Distinct`.  Each of the two `DistinctIterator`s allocates a
`seen` set of its own; they are constructed here from left to right (C++ leaves the
order open, and it only decides which cell gets which address). -/
def Range.Distinct {H I T : Type} [DecidableEq T] (ops : IterOps H I T) (r : Range T I) :
    Exec (H × SeenHeap T) (Range T (DistinctIterator I)) := fun st =>
  match DistinctIterator.new ops r.beginIndex r.endIndex st with
  | .error f => .error f
  | .ok (b, st1) =>
    match DistinctIterator.new ops r.endIndex r.endIndex st1 with
    | .error f => .error f
    | .ok (e, st2) => .ok (Range.ofIterators b e, st2)

/-- The terminal `Range::ToVector`: `std::vector<T>(begin(), end())`. -/
def Range.ToVector {H I T : Type} (ops : IterOps H I T) (r : Range T I) : Exec H (List T) :=
  vectorFromRange ops r.begin r.end

/-- The terminal `Range::ToArray`. -/
def Range.ToArray {H I T : Type} (ops : IterOps H I T) (r : Range T I) : Exec H (List T) :=
  r.ToVector ops

/-- The terminal `Range::Count()`: `std::distance(begin(), end())`. -/
def Range.Count {H I T : Type} (ops : IterOps H I T) (r : Range T I) : Exec H Nat :=
  distance ops r.begin r.end

/-- The terminal `Range::Aggregate`: a range-based `for` applying `func`. -/
def Range.Aggregate {H I T A : Type} (ops : IterOps H I T) (r : Range T I) (seed : A)
    (func : A → T → A) : Exec H A :=
  forEach ops r.begin r.end func seed

/-- The one-argument terminal `Range::ToMap(keySelector)`. -/
def Range.ToMap {H I T K : Type} [LinearOrder K] (ops : IterOps H I T) (r : Range T I)
    (keySelector : T → K) : Exec H (StdMap K T) :=
  forEach ops r.begin r.end (fun (map : StdMap K T) item => map.emplace (keySelector item) item) []

/-- The two-argument terminal `Range::ToMap(keySelector, valueSelector)`. -/
def Range.ToMap₂ {H I T K V : Type} [LinearOrder K] (ops : IterOps H I T) (r : Range T I)
    (keySelector : T → K) (valueSelector : T → V) : Exec H (StdMap K V) :=
  forEach ops r.begin r.end
    (fun (map : StdMap K V) item => map.emplace (keySelector item) (valueSelector item)) []

/-- The members of `OrderedRange<T, Iterator>`, a `Range` produced by a sort. -/
structure OrderedRange (T I : Type) extends Range T I

/-- The operator `Range::OrderBy`: the elements are copied into a buffer, which is
sorted with `std::sort` and the comparison `ks(a) < ks(b)`. -/
def Range.OrderBy {H I T K : Type} [LinearOrder K] (alg : StdSort) (ops : IterOps H I T)
    (r : Range T I) (ks : T → K) : Exec H (OrderedRange T (Ptr T)) := fun h =>
  match vectorFromRange ops r.begin r.end h with
  | .error f => .error f
  | .ok (data, h') => .ok (⟨Range.ofData (alg.sort (fun a b => decide (ks a < ks b)) data)⟩, h')

/-- The operator `Range::OrderByDescending`: as `OrderBy`, with the comparison
`ks(a) > ks(b)`. -/
def Range.OrderByDescending {H I T K : Type} [LinearOrder K] (alg : StdSort)
    (ops : IterOps H I T) (r : Range T I) (ks : T → K) : Exec H (OrderedRange T (Ptr T)) :=
  fun h =>
  match vectorFromRange ops r.begin r.end h with
  | .error f => .error f
  | .ok (data, h') => .ok (⟨Range.ofData (alg.sort (fun a b => decide (ks a > ks b)) data)⟩, h')

/-- The call `std::stable_sort(first, last, comp)` on iterators into one buffer: the
buffer after the elements at offsets `[first.pos, last.pos)` were sorted in place. -/
def stableSortInPlace {T : Type} (comp : T → T → Bool) (first last : Ptr T) : List T :=
  first.buf.take first.pos ++ stableSort comp ((first.buf.take last.pos).drop first.pos) ++
    first.buf.drop last.pos

/-- The operator `OrderedRange::ThenBy`.  The sort happens in place in the shared
buffer, which the range and both of its iterators see afterwards. -/
def OrderedRange.ThenBy {T K : Type} [LinearOrder K] (r : OrderedRange T (Ptr T)) (ks : T → K) :
    OrderedRange T (Ptr T) :=
  match r.dataPointer with
  | none => r
  | some _ =>
    let data := stableSortInPlace (fun a b => decide (ks a < ks b)) r.beginIndex r.endIndex
    ⟨⟨some data, ⟨data, r.beginIndex.pos⟩, ⟨data, r.endIndex.pos⟩⟩⟩

/-- The operator `OrderedRange::ThenByDescending`. -/
def OrderedRange.ThenByDescending {T K : Type} [LinearOrder K] (r : OrderedRange T (Ptr T))
    (ks : T → K) : OrderedRange T (Ptr T) :=
  match r.dataPointer with
  | none => r
  | some _ =>
    let data := stableSortInPlace (fun a b => decide (ks a > ks b)) r.beginIndex r.endIndex
    ⟨⟨some data, ⟨data, r.beginIndex.pos⟩, ⟨data, r.endIndex.pos⟩⟩⟩

/-- The operator `Range::Reverse`: copy into a buffer, then `std::reverse`. -/
def Range.Reverse {H I T : Type} (ops : IterOps H I T) (r : Range T I) :
    Exec H (Range T (Ptr T)) := fun h =>
  match vectorFromRange ops r.begin r.end h with
  | .error f => .error f
  | .ok (data, h') => .ok (Range.ofData data.reverse, h')

/-- The body shared by the two loops of `Union`:
`if (seen.find(item) == seen.end()) { seen.insert(item); data->push_back(item); }`
on the pair `(data, seen)`. -/
def unionStep {T : Type} [DecidableEq T] (acc : List T × List T) (item : T) : List T × List T :=
  if item ∈ acc.2 then acc else (acc.1 ++ [item], acc.2.insert item)

/-- The operator `Range::Union`. -/
def Range.Union {H I J T : Type} [DecidableEq T] (ops : IterOps H I T) (ops' : IterOps H J T)
    (r : Range T I) (other : Range T J) : Exec H (Range T (Ptr T)) := fun h =>
  match forEach ops r.begin r.end unionStep ([], []) h with
  | .error f => .error f
  | .ok (acc, h1) =>
    match forEach ops' other.begin other.end unionStep acc h1 with
    | .error f => .error f
    | .ok (acc', h2) => .ok (Range.ofData acc'.1, h2)

/-- The loop body of `Intersect`:
`if (otherSet.count(item) && seen.find(item) == seen.end()) { push_back; insert; }`. -/
def intersectStep {T : Type} [DecidableEq T] (otherSet : List T) (acc : List T × List T)
    (item : T) : List T × List T :=
  if item ∈ otherSet ∧ item ∉ acc.2 then (acc.1 ++ [item], acc.2.insert item) else acc

/-- The operator `Range::Intersect`. -/
def Range.Intersect {H I J T : Type} [DecidableEq T] (ops : IterOps H I T)
    (ops' : IterOps H J T) (r : Range T I) (other : Range T J) : Exec H (Range T (Ptr T)) :=
  fun h =>
  match unorderedSetFromRange ops' other.begin other.end h with
  | .error f => .error f
  | .ok (otherSet, h1) =>
    match forEach ops r.begin r.end (intersectStep otherSet) ([], []) h1 with
    | .error f => .error f
    | .ok (acc, h2) => .ok (Range.ofData acc.1, h2)

/-- The loop body of `Except`:
`if (otherSet.find(item) == otherSet.end() && seen.find(item) == seen.end()) { ... }`. -/
def exceptStep {T : Type} [DecidableEq T] (otherSet : List T) (acc : List T × List T)
    (item : T) : List T × List T :=
  if item ∉ otherSet ∧ item ∉ acc.2 then (acc.1 ++ [item], acc.2.insert item) else acc

/-- The operator `Range::Except`. -/
def Range.Except {H I J T : Type} [DecidableEq T] (ops : IterOps H I T)
    (ops' : IterOps H J T) (r : Range T I) (other : Range T J) : Exec H (Range T (Ptr T)) :=
  fun h =>
  match unorderedSetFromRange ops' other.begin other.end h with
  | .error f => .error f
  | .ok (otherSet, h1) =>
    match forEach ops r.begin r.end (exceptStep otherSet) ([], []) h1 with
    | .error f => .error f
    | .ok (acc, h2) => .ok (Range.ofData acc.1, h2)

/-! ## Terminal operators of `Range` that can throw (LinQ.hpp 243-303, 423-519) -/

/-- The exception of `First`, `Last`, `Single`, `Min`, `Max` on a range without
elements: `throw std::runtime_error("Sequence contains no elements")`. -/
def Fault.emptySequence : Fault := .runtimeError "Sequence contains no elements"

/-- The exception of `Single` and `SingleOrDefault` on a range with a second element:
`throw std::runtime_error("Sequence contains more than one element")`. -/
def Fault.multipleElements : Fault := .runtimeError "Sequence contains more than one element"

/-- The exception of `ElementAt`: `throw std::out_of_range("Index out of range")`. -/
def Fault.indexOutOfRange : Fault := .outOfRange "Index out of range"

/-- The terminal `Range::First()`. -/
def Range.First {H I T : Type} (ops : IterOps H I T) (r : Range T I) : Exec H T := fun h =>
  if ops.eq r.begin r.end then .error .emptySequence
  else
    match ops.deref r.begin with
    | .error f => .error f
    | .ok x => .ok (x, h)

/-- The terminal `Range::First(p)`: `Where(p).First()`. -/
def Range.First₁ {H I T : Type} (ops : IterOps H I T) (r : Range T I) (p : T → Bool) :
    Exec H T :=
  (r.Where ops p).bind (fun q => q.First (WhereIterator.ops ops))

/-- The terminal `Range::FirstOrDefault()`; `none` is `std::nullopt`. -/
def Range.FirstOrDefault {H I T : Type} (ops : IterOps H I T) (r : Range T I) :
    Exec H (Option T) := fun h =>
  if ops.eq r.begin r.end then .ok (none, h)
  else
    match ops.deref r.begin with
    | .error f => .error f
    | .ok x => .ok (some x, h)

/-- The terminal `Range::FirstOrDefault(p)`: `Where(p).FirstOrDefault()`. -/
def Range.FirstOrDefault₁ {H I T : Type} (ops : IterOps H I T) (r : Range T I)
    (p : T → Bool) : Exec H (Option T) :=
  (r.Where ops p).bind (fun q => q.FirstOrDefault (WhereIterator.ops ops))

/-- The terminal `Range::Count(p)`: `Where(p).Count()`. -/
def Range.Count₁ {H I T : Type} (ops : IterOps H I T) (r : Range T I) (p : T → Bool) :
    Exec H Nat :=
  (r.Where ops p).bind (fun q => q.Count (WhereIterator.ops ops))

/-- The call `std::advance(it, n)` for a forward iterator and `n ≥ 0`:
`while (n--) ++it;`. -/
def advance {H I T : Type} (ops : IterOps H I T) : Nat → I → Exec H I
  | 0, it => fun h => .ok (it, h)
  | n + 1, it => fun h =>
    match ops.incr it h with
    | .error f => .error f
    | .ok (it', h') => advance ops n it' h'

/-- The operator `Range::Skip`.  The result is built with the iterator-pair
constructor. -/
def Range.Skip {H I T : Type} (ops : IterOps H I T) (r : Range T I) (count : Nat) :
    Exec H (Range T I) := fun h =>
  match distance ops r.begin r.end h with
  | .error f => .error f
  | .ok (d, h1) =>
    match advance ops (min count d) r.begin h1 with
    | .error f => .error f
    | .ok (it, h2) => .ok (Range.ofIterators it r.end, h2)

/-- The operator `Range::Take`. -/
def Range.Take {H I T : Type} (ops : IterOps H I T) (r : Range T I) (count : Nat) :
    Exec H (Range T I) := fun h =>
  match distance ops r.begin r.end h with
  | .error f => .error f
  | .ok (dist, h1) =>
    match advance ops (min count dist) r.begin h1 with
    | .error f => .error f
    | .ok (newEnd, h2) => .ok (Range.ofIterators r.begin newEnd, h2)

/-- The loop of `std::min_element` after its first increment:
`for (; first != last; ++first) if (*first < *smallest) smallest = first;`. -/
def minElementLoop {H I T : Type} [LinearOrder T] (ops : IterOps H I T) (last : I) :
    Nat → I → I → Exec H I
  | 0, _, _ => fun _ => .error .outOfFuel
  | fuel + 1, first, smallest => fun h =>
    if ops.eq first last then .ok (smallest, h)
    else
      match ops.deref first, ops.deref smallest with
      | .ok x, .ok m =>
        match ops.incr first h with
        | .error f => .error f
        | .ok (first', h') =>
          minElementLoop ops last fuel first' (if x < m then first else smallest) h'
      | .error f, _ => .error f
      | _, .error f => .error f

/-- The call `std::min_element(first, last)`: `last` for an empty range, else the
first position holding a smallest element. -/
def minElement {H I T : Type} [LinearOrder T] (ops : IterOps H I T) (first last : I) :
    Exec H I := fun h =>
  if ops.eq first last then .ok (last, h)
  else
    match ops.incr first h with
    | .error f => .error f
    | .ok (first', h') => minElementLoop ops last (ops.rem first' + 1) first' first h'

/-- The loop of `std::max_element` after its first increment:
`for (; first != last; ++first) if (*largest < *first) largest = first;`. -/
def maxElementLoop {H I T : Type} [LinearOrder T] (ops : IterOps H I T) (last : I) :
    Nat → I → I → Exec H I
  | 0, _, _ => fun _ => .error .outOfFuel
  | fuel + 1, first, largest => fun h =>
    if ops.eq first last then .ok (largest, h)
    else
      match ops.deref first, ops.deref largest with
      | .ok x, .ok m =>
        match ops.incr first h with
        | .error f => .error f
        | .ok (first', h') =>
          maxElementLoop ops last fuel first' (if m < x then first else largest) h'
      | .error f, _ => .error f
      | _, .error f => .error f

/-- The call `std::max_element(first, last)`. -/
def maxElement {H I T : Type} [LinearOrder T] (ops : IterOps H I T) (first last : I) :
    Exec H I := fun h =>
  if ops.eq first last then .ok (last, h)
  else
    match ops.incr first h with
    | .error f => .error f
    | .ok (first', h') => maxElementLoop ops last (ops.rem first' + 1) first' first h'

/-- The terminal `Range::Min`. -/
def Range.Min {H I T : Type} [LinearOrder T] (ops : IterOps H I T) (r : Range T I) :
    Exec H T := fun h =>
  if ops.eq r.begin r.end then .error .emptySequence
  else
    match minElement ops r.begin r.end h with
    | .error f => .error f
    | .ok (it, h') =>
      match ops.deref it with
      | .error f => .error f
      | .ok x => .ok (x, h')

/-- The terminal `Range::Max`. -/
def Range.Max {H I T : Type} [LinearOrder T] (ops : IterOps H I T) (r : Range T I) :
    Exec H T := fun h =>
  if ops.eq r.begin r.end then .error .emptySequence
  else
    match maxElement ops r.begin r.end h with
    | .error f => .error f
    | .ok (it, h') =>
      match ops.deref it with
      | .error f => .error f
      | .ok x => .ok (x, h')

/-- The loop `for (i = 0; i < index; ++i) { if (it == end()) ...; ++it; }` shared by
`ElementAt` and `ElementAtOrDefault`; `none` says that the branch `it == end()` was
taken, where the one throws and the other returns `std::nullopt`. -/
def elementAtLoop {H I T : Type} (ops : IterOps H I T) (last : I) : Nat → I → Exec H (Option I)
  | 0, it => fun h => .ok (some it, h)
  | index + 1, it => fun h =>
    if ops.eq it last then .ok (none, h)
    else
      match ops.incr it h with
      | .error f => .error f
      | .ok (it', h') => elementAtLoop ops last index it' h'

/-- The terminal `Range::ElementAt`. -/
def Range.ElementAt {H I T : Type} (ops : IterOps H I T) (r : Range T I) (index : Nat) :
    Exec H T := fun h =>
  match elementAtLoop ops r.end index r.begin h with
  | .error f => .error f
  | .ok (none, _) => .error .indexOutOfRange
  | .ok (some it, h') =>
    if ops.eq it r.end then .error .indexOutOfRange
    else
      match ops.deref it with
      | .error f => .error f
      | .ok x => .ok (x, h')

/-- The terminal `Range::ElementAtOrDefault`. -/
def Range.ElementAtOrDefault {H I T : Type} (ops : IterOps H I T) (r : Range T I)
    (index : Nat) : Exec H (Option T) := fun h =>
  match elementAtLoop ops r.end index r.begin h with
  | .error f => .error f
  | .ok (none, h') => .ok (none, h')
  | .ok (some it, h') =>
    if ops.eq it r.end then .ok (none, h')
    else
      match ops.deref it with
      | .error f => .error f
      | .ok x => .ok (some x, h')

/-- The loop `while (next != end()) { ++it; ++next; }` of `Last` and `LastOrDefault`. -/
def lastLoop {H I T : Type} (ops : IterOps H I T) (last : I) : Nat → I → I → Exec H I
  | 0, _, _ => fun _ => .error .outOfFuel
  | fuel + 1, it, next => fun h =>
    if ops.eq next last then .ok (it, h)
    else
      match ops.incr it h with
      | .error f => .error f
      | .ok (it', h1) =>
        match ops.incr next h1 with
        | .error f => .error f
        | .ok (next', h2) => lastLoop ops last fuel it' next' h2

/-- The terminal `Range::Last()`. -/
def Range.Last {H I T : Type} (ops : IterOps H I T) (r : Range T I) : Exec H T := fun h =>
  if ops.eq r.begin r.end then .error .emptySequence
  else
    match ops.incr r.begin h with
    | .error f => .error f
    | .ok (next, h1) =>
      match lastLoop ops r.end (ops.rem next + 1) r.begin next h1 with
      | .error f => .error f
      | .ok (it, h2) =>
        match ops.deref it with
        | .error f => .error f
        | .ok x => .ok (x, h2)

/-- The terminal `Range::Last(p)`: `Where(p).Last()`. -/
def Range.Last₁ {H I T : Type} (ops : IterOps H I T) (r : Range T I) (p : T → Bool) :
    Exec H T :=
  (r.Where ops p).bind (fun q => q.Last (WhereIterator.ops ops))

/-- The terminal `Range::LastOrDefault()`. -/
def Range.LastOrDefault {H I T : Type} (ops : IterOps H I T) (r : Range T I) :
    Exec H (Option T) := fun h =>
  if ops.eq r.begin r.end then .ok (none, h)
  else
    match ops.incr r.begin h with
    | .error f => .error f
    | .ok (next, h1) =>
      match lastLoop ops r.end (ops.rem next + 1) r.begin next h1 with
      | .error f => .error f
      | .ok (it, h2) =>
        match ops.deref it with
        | .error f => .error f
        | .ok x => .ok (some x, h2)

/-- The terminal `Range::LastOrDefault(p)`: `Where(p).LastOrDefault()`. -/
def Range.LastOrDefault₁ {H I T : Type} (ops : IterOps H I T) (r : Range T I)
    (p : T → Bool) : Exec H (Option T) :=
  (r.Where ops p).bind (fun q => q.LastOrDefault (WhereIterator.ops ops))

/-- The terminal `Range::Single()`. -/
def Range.Single {H I T : Type} (ops : IterOps H I T) (r : Range T I) : Exec H T := fun h =>
  if ops.eq r.begin r.end then .error .emptySequence
  else
    match ops.incr r.begin h with
    | .error f => .error f
    | .ok (next, h1) =>
      if ops.eq next r.end then
        match ops.deref r.begin with
        | .error f => .error f
        | .ok x => .ok (x, h1)
      else .error .multipleElements

/-- The terminal `Range::Single(p)`: `Where(p).Single()`. -/
def Range.Single₁ {H I T : Type} (ops : IterOps H I T) (r : Range T I) (p : T → Bool) :
    Exec H T :=
  (r.Where ops p).bind (fun q => q.Single (WhereIterator.ops ops))

/-- The terminal `Range::SingleOrDefault()`. -/
def Range.SingleOrDefault {H I T : Type} (ops : IterOps H I T) (r : Range T I) :
    Exec H (Option T) := fun h =>
  if ops.eq r.begin r.end then .ok (none, h)
  else
    match ops.incr r.begin h with
    | .error f => .error f
    | .ok (next, h1) =>
      if ops.eq next r.end then
        match ops.deref r.begin with
        | .error f => .error f
        | .ok x => .ok (some x, h1)
      else .error .multipleElements

/-- The terminal `Range::SingleOrDefault(p)`: `Where(p).SingleOrDefault()`. -/
def Range.SingleOrDefault₁ {H I T : Type} (ops : IterOps H I T) (r : Range T I)
    (p : T → Bool) : Exec H (Option T) :=
  (r.Where ops p).bind (fun q => q.SingleOrDefault (WhereIterator.ops ops))

/-- The terminal `Range::ToCArray`.  The first component is the `std::unique_ptr<T[]>`,
`none` being the null pointer; `std::make_unique<T[]>(count)` value-initialises `count`
elements, which `std::copy` then overwrites from the front. -/
def Range.ToCArray {H I T : Type} [Inhabited T] (ops : IterOps H I T) (r : Range T I) :
    Exec H (Option (List T) × Nat) := fun h =>
  match distance ops r.begin r.end h with
  | .error f => .error f
  | .ok (count, h1) =>
    if count = 0 then .ok ((none, 0), h1)
    else
      match forEach ops r.begin r.end (fun (v : List T) x => v ++ [x]) [] h1 with
      | .error f => .error f
      | .ok (v, h2) =>
        if v.length ≤ count then
          .ok ((some (v ++ List.replicate (count - v.length) default), count), h2)
        else .error .undefinedBehaviour

/-! ## `Grouping` and `GroupBy` (LinQ.hpp 135-145, 337-356) -/

/-- The class `Grouping<TKey, TElement>`: a `Range` over a buffer of members, with
the key they share. -/
structure Grouping (K T : Type) extends Range T (Ptr T) where
  key : K

/-- The constructor `Grouping(key, elements)`. -/
def Grouping.new {K T : Type} (key : K) (elements : List T) : Grouping K T :=
  ⟨Range.ofData elements, key⟩

/-- The member `Grouping::Key`. -/
def Grouping.Key {K T : Type} (g : Grouping K T) : K := g.key

/-- The use of `map[k]` on a key the map holds, to update the mapped value in place. -/
def StdMap.modify {K V : Type} [DecidableEq K] (m : StdMap K V) (k : K) (f : V → V) :
    StdMap K V :=
  m.map (fun e => if e.1 = k then (e.1, f e.2) else e)

/-- The body of the first loop of `GroupBy`:
`if (map.find(key) == map.end()) map[key] = make_shared<vector<T>>();`
`map[key]->push_back(item);`.  A mapped vector is represented by its elements. -/
def groupByStep {K T : Type} [LinearOrder K] (ks : T → K) (map : StdMap K (List T))
    (item : T) : StdMap K (List T) :=
  let key := ks item
  let map1 := if (map.find key).isNone then map.emplace key [] else map
  map1.modify key (fun members => members ++ [item])

/-- The operator `Range::GroupBy`: the first loop fills the map, the second turns its
entries, in key order, into the `Grouping`s of the result. -/
def Range.GroupBy {H I T K : Type} [LinearOrder K] (ops : IterOps H I T) (r : Range T I)
    (ks : T → K) : Exec H (Range (Grouping K T) (Ptr (Grouping K T))) := fun h =>
  match forEach ops r.begin r.end (groupByStep ks) [] h with
  | .error f => .error f
  | .ok (map, h') =>
    .ok (Range.ofData (map.foldl (fun groups pair => groups ++ [Grouping.new pair.1 pair.2]) []),
      h')

/-! ## Traversals -/

/-- Every successful increment uses up part of the bound `rem`, so that the fuel the
loops take from `rem` suffices. -/
def Lawful {H I T : Type} (ops : IterOps H I T) : Prop :=
  ∀ i h i' h', ops.incr i h = .ok (i', h') → ops.rem i' < ops.rem i

/-- Increments of the iterator type leave the store unchanged. -/
def StoreFree {H I T : Type} (ops : IterOps H I T) : Prop :=
  ∀ i h i' h', ops.incr i h = .ok (i', h') → h' = h

/-- The traversal relation.  `Run ops last it h L h'` says that stepping `it` with
`operator++` from the store `h` until it compares equal to `last` succeeds, that the
elements dereferenced on the way are `L`, and that the store is `h'` afterwards. -/
inductive Run {H I T : Type} (ops : IterOps H I T) (last : I) : I → H → List T → H → Prop
  | done {it : I} {h : H} : ops.eq it last = true → Run ops last it h [] h
  | step {it it' : I} {h h' h'' : H} {x : T} {xs : List T} :
      ops.eq it last = false → ops.deref it = .ok x → ops.incr it h = .ok (it', h') →
      Run ops last it' h' xs h'' → Run ops last it h (x :: xs) h''

/-- A specification function, not part of the header: the elements of `L` that are
neither in `seen` nor earlier in `L`, in the order of `L`. -/
def distinctFrom {T : Type} [DecidableEq T] : List T → List T → List T
  | _, [] => []
  | seen, x :: xs =>
    if x ∈ seen then distinctFrom seen xs else x :: distinctFrom (seen.insert x) xs

/-- A specification function, not part of the header: the set `seen` after every
element of `L` was inserted into it. -/
def seenAfter {T : Type} [DecidableEq T] (seen L : List T) : List T :=
  L.foldl (fun s x => s.insert x) seen

/-- A specification function, not part of the header: the deduplication of `L` that
keeps, of every value, the first occurrence. -/
def firstOccurrences {T : Type} [DecidableEq T] (L : List T) : List T := distinctFrom [] L

/-! # Theorems -/

section
variable {H I T : Type}

theorem Run.length_le_rem {ops : IterOps H I T} (hl : Lawful ops) {last it : I} {h h' : H}
    {L : List T} (hr : Run ops last it h L h') : L.length ≤ ops.rem it := by
  induction hr with
  | done _ => simp
  | step _ _ hi _ ih =>
    have := hl _ _ _ _ hi
    simp only [List.length_cons]
    omega

theorem forLoop_run {σ : Type} {ops : IterOps H I T} {last it : I} {h h' : H} {L : List T}
    (hr : Run ops last it h L h') (body : σ → T → σ) :
    ∀ fuel acc, L.length < fuel →
      forLoop ops last body fuel it acc h = .ok (L.foldl body acc, h') := by
  induction hr with
  | done heq =>
    intro fuel acc hf
    cases fuel with
    | zero => simp at hf
    | succ n => simp [forLoop, heq]
  | step hne hd hi _ ih =>
    intro fuel acc hf
    cases fuel with
    | zero => simp at hf
    | succ n =>
      simp only [forLoop, hne, hd, hi]
      exact ih n _ (by simpa using hf)

theorem distanceLoop_run {ops : IterOps H I T} {last it : I} {h h' : H} {L : List T}
    (hr : Run ops last it h L h') :
    ∀ fuel n, L.length < fuel →
      distanceLoop ops last fuel it n h = .ok (n + L.length, h') := by
  induction hr with
  | done heq =>
    intro fuel n hf
    cases fuel with
    | zero => simp at hf
    | succ k => simp [distanceLoop, heq]
  | step hne hd hi _ ih =>
    intro fuel n hf
    cases fuel with
    | zero => simp at hf
    | succ k =>
      simp only [distanceLoop, hne, hi]
      rw [ih k _ (by simpa using hf)]
      simp [Nat.add_assoc, Nat.add_comm 1]

theorem forEach_run {σ : Type} {ops : IterOps H I T} (hl : Lawful ops) {last it : I} {h h' : H}
    {L : List T} (hr : Run ops last it h L h') (body : σ → T → σ) (init : σ) :
    forEach ops it last body init h = .ok (L.foldl body init, h') :=
  forLoop_run hr body _ _ (Nat.lt_succ_of_le (hr.length_le_rem hl))

theorem distance_run {ops : IterOps H I T} (hl : Lawful ops) {last it : I} {h h' : H}
    {L : List T} (hr : Run ops last it h L h') :
    distance ops it last h = .ok (L.length, h') := by
  have := distanceLoop_run hr _ 0 (Nat.lt_succ_of_le (hr.length_le_rem hl))
  simpa [distance] using this

theorem foldl_push {T : Type} (L init : List T) :
    L.foldl (fun (v : List T) x => v ++ [x]) init = init ++ L := by
  induction L generalizing init with
  | nil => simp
  | cons x xs ih => simp [ih]

theorem vectorFromRange_run {ops : IterOps H I T} (hl : Lawful ops) {last it : I}
    {h h1 h2 : H} {L1 L2 : List T} (hr1 : Run ops last it h L1 h1)
    (hr2 : Run ops last it h1 L2 h2) (hlen : L2.length ≤ L1.length) :
    vectorFromRange ops it last h = .ok (L2, h2) := by
  simp [vectorFromRange, distance_run hl hr1, forEach_run hl hr2, foldl_push, hlen]

theorem ptr_lawful : Lawful (Ptr.ops : IterOps H (Ptr T) T) := by
  intro i h i' h' hi
  simp only [Ptr.ops] at hi ⊢
  split at hi
  · cases hi
    simp only
    omega
  · cases hi

theorem ptr_run (S : List T) (n : Nat) (hn : n ≤ S.length) (h : H) :
    ∀ k i, n - i = k → i ≤ n →
      Run (Ptr.ops : IterOps H (Ptr T) T) ⟨S, n⟩ ⟨S, i⟩ h ((S.take n).drop i) h := by
  intro k
  induction k with
  | zero =>
    intro i hk hi
    have : i = n := by omega
    subst this
    have : List.drop i (List.take i S) = [] := by simp
    rw [this]
    exact Run.done (by simp [Ptr.ops])
  | succ k ih =>
    intro i hk hi
    have hlt : i < n := by omega
    have hiS : i < S.length := by omega
    have hd : List.drop i (List.take n S) = S[i] :: List.drop (i + 1) (List.take n S) := by
      rw [List.drop_eq_getElem_cons (by simp; omega)]
      simp [List.getElem_take]
    rw [hd]
    have hinc : (Ptr.ops : IterOps H (Ptr T) T).incr ⟨S, i⟩ h = .ok (⟨S, i + 1⟩, h) := by
      simp [Ptr.ops, hiS]
    refine Run.step ?_ ?_ hinc (ih (i + 1) (by omega) (by omega))
    · simp [Ptr.ops]; omega
    · simp [Ptr.ops, hiS]

theorem From_run (S : List T) (h : H) :
    Run (Ptr.ops : IterOps H (Ptr T) T) (From S).end (From S).begin h S h := by
  have := ptr_run S S.length (Nat.le_refl _) h S.length 0 rfl (Nat.zero_le _)
  simpa [From, Range.ofIterators, Range.begin, Range.end] using this

theorem Run.store_eq {ops : IterOps H I T} (hp : StoreFree ops) {last it : I} {h h' : H}
    {L : List T} (hr : Run ops last it h L h') : h' = h := by
  induction hr with
  | done _ => rfl
  | step _ _ hi _ ih => rw [ih, hp _ _ _ _ hi]

theorem ptr_storeFree : StoreFree (Ptr.ops : IterOps H (Ptr T) T) := by
  intro i h i' h' hi
  simp only [Ptr.ops] at hi
  split at hi
  · cases hi; rfl
  · cases hi

theorem where_skip_rem {ops : IterOps H I T} (hl : Lawful ops) (e : I) (p : T → Bool) :
    ∀ fuel cur h c1 h1, WhereIterator.skip ops e p fuel cur h = .ok (c1, h1) →
      ops.rem c1 ≤ ops.rem cur := by
  intro fuel
  induction fuel with
  | zero => intro cur h c1 h1 hs; simp [WhereIterator.skip] at hs
  | succ n ih =>
    intro cur h c1 h1 hs
    simp only [WhereIterator.skip] at hs
    split at hs
    · cases hs; exact Nat.le_refl _
    · split at hs
      · cases hs
      · split at hs
        · cases hs; exact Nat.le_refl _
        · split at hs
          · cases hs
          · rename_i cur' h' hi
            have h1 := ih _ _ _ _ hs
            have h2 := hl _ _ _ _ hi
            omega

theorem where_skip_store {ops : IterOps H I T} (hp : StoreFree ops) (e : I)
    (p : T → Bool) :
    ∀ fuel cur h c1 h1, WhereIterator.skip ops e p fuel cur h = .ok (c1, h1) → h1 = h := by
  intro fuel
  induction fuel with
  | zero => intro cur h c1 h1 hs; simp [WhereIterator.skip] at hs
  | succ n ih =>
    intro cur h c1 h1 hs
    simp only [WhereIterator.skip] at hs
    split at hs
    · cases hs; rfl
    · split at hs
      · cases hs
      · split at hs
        · cases hs; rfl
        · split at hs
          · cases hs
          · rename_i cur' h' hi
            rw [ih _ _ _ _ hs, hp _ _ _ _ hi]

theorem where_lawful {ops : IterOps H I T} (hl : Lawful ops) :
    Lawful (WhereIterator.ops ops) := by
  intro w h w' h' hi
  simp only [WhereIterator.ops, WhereIterator.incr] at hi ⊢
  split at hi
  · cases hi
  · rename_i cur h1 hinc
    split at hi
    · cases hi
    · rename_i cur' h2 hs
      cases hi
      have h1 := where_skip_rem hl _ _ _ _ _ _ _ hs
      have h2 := hl _ _ _ _ hinc
      simp only
      omega

theorem where_storeFree {ops : IterOps H I T} (hp : StoreFree ops) :
    StoreFree (WhereIterator.ops ops) := by
  intro w h w' h' hi
  simp only [WhereIterator.ops, WhereIterator.incr] at hi
  split at hi
  · cases hi
  · rename_i cur h1 hinc
    split at hi
    · cases hi
    · rename_i cur' h2 hs
      cases hi
      rw [where_skip_store hp _ _ _ _ _ _ _ hs, hp _ _ _ _ hinc]

theorem where_skip_run {ops : IterOps H I T} (hl : Lawful ops) {e c : I} {h h' : H}
    {L : List T} (p : T → Bool) (hr : Run ops e c h L h') (wl : WhereIterator I T)
    (hwl : wl.current = e) :
    ∃ c1 h1, (∀ fuel, L.length < fuel → WhereIterator.skip ops e p fuel c h = .ok (c1, h1)) ∧
      Run (WhereIterator.ops ops) wl ⟨c1, e, p⟩ h1 (L.filter p) h' := by
  induction hr with
  | @done it h heq =>
    refine ⟨it, h, ?_, ?_⟩
    · intro fuel hf
      cases fuel with
      | zero => simp at hf
      | succ n => simp [WhereIterator.skip, heq]
    · exact Run.done (by simp [WhereIterator.ops, hwl, heq])
  | @step it it' h h1 h2 x xs hne hd hi hrest ih =>
    obtain ⟨c1, hc1, hskip, hrun⟩ := ih
    by_cases hp : p x = true
    · refine ⟨it, h, ?_, ?_⟩
      · intro fuel hf
        cases fuel with
        | zero => simp at hf
        | succ n => simp [WhereIterator.skip, hne, hd, hp]
      · rw [List.filter_cons_of_pos hp]
        have hinc : (WhereIterator.ops ops).incr ⟨it, e, p⟩ h = .ok (⟨c1, e, p⟩, hc1) := by
          have := hskip (ops.rem it' + 1) (Nat.lt_succ_of_le (hrest.length_le_rem hl))
          simp [WhereIterator.ops, WhereIterator.incr, hi, this]
        refine Run.step ?_ ?_ hinc hrun
        · simp [WhereIterator.ops, hwl, hne]
        · simpa [WhereIterator.ops] using hd
    · refine ⟨c1, hc1, ?_, ?_⟩
      · intro fuel hf
        cases fuel with
        | zero => simp at hf
        | succ n =>
          simp only [WhereIterator.skip, hne, hd, hp, hi]
          exact hskip n (by simpa using hf)
      · rw [List.filter_cons_of_neg hp]
        exact hrun

theorem Range.Where_run {ops : IterOps H I T} (hl : Lawful ops) (r : Range T I) (p : T → Bool)
    {h h' : H} {L : List T} (hr : Run ops r.end r.begin h L h')
    (hrefl : ops.eq r.end r.end = true) :
    ∃ q h1, r.Where ops p h = .ok (q, h1) ∧
      Run (WhereIterator.ops ops) q.end q.begin h1 (L.filter p) h' := by
  obtain ⟨c1, h1, hskip, hrun⟩ :=
    where_skip_run hl p hr ⟨r.end, r.end, p⟩ rfl
  refine ⟨Range.ofIterators ⟨c1, r.end, p⟩ ⟨r.end, r.end, p⟩, h1, ?_, hrun⟩
  have hb := hskip (ops.rem r.begin + 1) (Nat.lt_succ_of_le (hr.length_le_rem hl))
  have he : WhereIterator.skip ops r.end p (ops.rem r.end + 1) r.end h1 = .ok (r.end, h1) := by
    simp [WhereIterator.skip, hrefl]
  simp only [Range.begin, Range.end] at hb he hrefl
  simp [Range.Where, WhereIterator.new, hb, he, Range.end]

theorem select_lawful {U : Type} {ops : IterOps H I T} (hl : Lawful ops) :
    Lawful (SelectIterator.ops ops : IterOps H (SelectIterator I T U) U) := by
  intro s h s' h' hi
  simp only [SelectIterator.ops] at hi ⊢
  split at hi
  · cases hi
  · rename_i cur h1 hinc
    cases hi
    exact hl _ _ _ _ hinc

theorem select_storeFree {U : Type} {ops : IterOps H I T} (hp : StoreFree ops) :
    StoreFree (SelectIterator.ops ops : IterOps H (SelectIterator I T U) U) := by
  intro s h s' h' hi
  simp only [SelectIterator.ops] at hi
  split at hi
  · cases hi
  · rename_i cur h1 hinc
    cases hi
    exact hp _ _ _ _ hinc

theorem select_run {U : Type} {ops : IterOps H I T} (t : T → U) {e c : I}
    {h h' : H} {L : List T} (hr : Run ops e c h L h') :
    Run (SelectIterator.ops ops) ⟨e, t⟩ ⟨c, t⟩ h (L.map t) h' := by
  induction hr with
  | done heq => exact Run.done (by simpa [SelectIterator.ops] using heq)
  | step hne hd hi _ ih =>
    rw [List.map_cons]
    refine Run.step ?_ ?_ ?_ ih
    · simpa [SelectIterator.ops] using hne
    · simp [SelectIterator.ops, hd]
    · simp [SelectIterator.ops, hi]

theorem Range.Select_run {U : Type} {ops : IterOps H I T} (r : Range T I) (t : T → U)
    {h h' : H} {L : List T} (hr : Run ops r.end r.begin h L h') :
    Run (SelectIterator.ops ops) (r.Select t).end (r.Select t).begin h (L.map t) h' :=
  select_run t hr

theorem Range.ToVector_run {ops : IterOps H I T} (hl : Lawful ops) (hp : StoreFree ops)
    (r : Range T I) {h h' : H} {L : List T} (hr : Run ops r.end r.begin h L h') :
    r.ToVector ops h = .ok (L, h) := by
  have := hr.store_eq hp
  subst this
  exact vectorFromRange_run hl hr hr (Nat.le_refl _)

theorem Range.Count_run {ops : IterOps H I T} (hl : Lawful ops)
    (r : Range T I) {h h' : H} {L : List T} (hr : Run ops r.end r.begin h L h') :
    r.Count ops h = .ok (L.length, h') :=
  distance_run hl hr

/-- C1. For every sequence `S` and predicate `p`, `From(S).Where(p).ToVector()` returns
the elements of `S` that satisfy `p`, in their original order (`S.filter p`);
`From(S).Where(p).Count()` returns the number of elements of `S` satisfying `p`; and
every element yielded satisfies `p`. -/
theorem where_toVector_eq_filter (S : List T) (p : T → Bool) (h : H) :
    ((From S).Where Ptr.ops p).bind (fun q => q.ToVector (WhereIterator.ops Ptr.ops)) h
        = .ok (S.filter p, h) ∧
      ((From S).Where Ptr.ops p).bind (fun q => q.Count (WhereIterator.ops Ptr.ops)) h
        = .ok (S.countP p, h) ∧
      ∀ x ∈ S.filter p, p x = true := by
  obtain ⟨q, h1, hq, hrun⟩ :=
    Range.Where_run ptr_lawful (From S) p (From_run S h) (by simp [Ptr.ops])
  have hs := hrun.store_eq (where_storeFree ptr_storeFree)
  subst hs
  refine ⟨?_, ?_, ?_⟩
  · simp [Exec.bind, hq,
      Range.ToVector_run (where_lawful ptr_lawful) (where_storeFree ptr_storeFree)
        q hrun]
  · simp [Exec.bind, hq, Range.Count_run (where_lawful ptr_lawful) q hrun,
      List.countP_eq_length_filter]
  · intro x hx
    exact (List.mem_filter.mp hx).2

end


section
variable {H I T : Type} [DecidableEq T]

theorem set_of_getElem? {α : Type} : ∀ (l : List α) (a : Nat) (s : α),
    l[a]? = some s → l.set a s = l
  | [], _, _, h => by simp at h
  | x :: xs, 0, s, h => by simp at h; simp [h]
  | x :: xs, a + 1, s, h => by
    simp at h
    simp [set_of_getElem? xs a s h]

theorem getElem?_set_of_some {α : Type} (l : List α) (a : Nat) (s v : α)
    (h : l[a]? = some s) : (l.set a v)[a]? = some v := by
  have hlt : a < l.length := by
    by_contra hge
    rw [List.getElem?_eq_none (by omega)] at h
    cases h
  exact List.getElem?_set_self hlt

theorem dropWhile_seen_nil (s : List T) : ∀ L : List T, L.dropWhile (fun x => decide (x ∈ s)) = [] →
    distinctFrom s L = [] ∧ seenAfter s L = s
  | [], _ => by simp [distinctFrom, seenAfter]
  | x :: xs, h => by
    by_cases hx : x ∈ s
    · rw [List.dropWhile_cons_of_pos (by simpa using hx)] at h
      have ih := dropWhile_seen_nil s xs h
      simp only [seenAfter] at ih
      simp [distinctFrom, seenAfter, hx, ih.1, ih.2]
    · rw [List.dropWhile_cons_of_neg (by simpa using hx)] at h
      cases h

theorem dropWhile_seen_cons (s : List T) (y : T) (ys : List T) : ∀ L : List T,
    L.dropWhile (fun x => decide (x ∈ s)) = y :: ys →
    distinctFrom s L = y :: distinctFrom (s.insert y) ys ∧
      seenAfter s L = seenAfter (s.insert y) ys
  | [], h => by simp at h
  | x :: xs, h => by
    by_cases hx : x ∈ s
    · rw [List.dropWhile_cons_of_pos (by simpa using hx)] at h
      have ih := dropWhile_seen_cons s y ys xs h
      simp only [seenAfter] at ih
      simp [distinctFrom, seenAfter, hx, ih.1, ih.2]
    · rw [List.dropWhile_cons_of_neg (by simpa using hx)] at h
      cases h
      simp [distinctFrom, seenAfter, hx]

theorem distinct_skip_rem {ops : IterOps H I T} (hl : Lawful ops) (e : I) (a : Nat) :
    ∀ fuel cur st c1 st1, DistinctIterator.skip ops e a fuel cur st = .ok (c1, st1) →
      ops.rem c1 ≤ ops.rem cur := by
  intro fuel
  induction fuel with
  | zero => intro cur st c1 st1 hs; simp [DistinctIterator.skip] at hs
  | succ n ih =>
    intro cur st c1 st1 hs
    simp only [DistinctIterator.skip] at hs
    split at hs
    · cases hs; exact Nat.le_refl _
    · split at hs
      · cases hs
      · split at hs
        · cases hs
        · split at hs
          · split at hs
            · cases hs
            · rename_i cur' h' hi
              have h1 := ih _ _ _ _ hs
              have h2 := hl _ _ _ _ hi
              omega
          · cases hs; exact Nat.le_refl _

theorem distinct_advance_rem {ops : IterOps H I T} (hl : Lawful ops)
    (d d' : DistinctIterator I) (st st' : H × SeenHeap T)
    (h : DistinctIterator.advanceToNextUnique ops d st = .ok (d', st')) :
    ops.rem d'.current ≤ ops.rem d.current := by
  simp only [DistinctIterator.advanceToNextUnique] at h
  split at h
  · cases h
  · rename_i cur st1 hs
    have hr := distinct_skip_rem hl _ _ _ _ _ _ _ hs
    split at h
    · cases h; exact hr
    · split at h
      · cases h
      · split at h
        · cases h
        · cases h; exact hr

theorem distinct_lawful {ops : IterOps H I T} (hl : Lawful ops) :
    Lawful (DistinctIterator.ops ops) := by
  intro d st d' st' hi
  simp only [DistinctIterator.ops, DistinctIterator.incr] at hi ⊢
  split at hi
  · cases hi
  · rename_i cur h1 hinc
    have h1 := distinct_advance_rem hl _ _ _ _ hi
    have h2 := hl _ _ _ _ hinc
    simp only at h1
    omega

theorem distinct_skip_run {ops : IterOps H I T} {e c : I} {h h' : H}
    {L : List T} (a : Nat) (sets : SeenHeap T) (s : List T) (hs : sets[a]? = some s)
    (hr : Run ops e c h L h') :
    ∃ c1 h1, (∀ fuel, L.length < fuel →
        DistinctIterator.skip ops e a fuel c (h, sets) = .ok (c1, (h1, sets))) ∧
      Run ops e c1 h1 (L.dropWhile (fun x => decide (x ∈ s))) h' := by
  induction hr with
  | @done it h heq =>
    refine ⟨it, h, ?_, Run.done heq⟩
    intro fuel hf
    cases fuel with
    | zero => simp at hf
    | succ n => simp [DistinctIterator.skip, heq]
  | @step it it' h h1 h2 x xs hne hd hi hrest ih =>
    obtain ⟨c1, hc1, hskip, hrun⟩ := ih
    by_cases hx : x ∈ s
    · refine ⟨c1, hc1, ?_, ?_⟩
      · intro fuel hf
        cases fuel with
        | zero => simp at hf
        | succ n =>
          simp only [DistinctIterator.skip, hne, hd, hs, hx, hi]
          exact hskip n (by simpa using hf)
      · rw [List.dropWhile_cons_of_pos (by simpa using hx)]
        exact hrun
    · refine ⟨it, h, ?_, ?_⟩
      · intro fuel hf
        cases fuel with
        | zero => simp at hf
        | succ n => simp [DistinctIterator.skip, hne, hd, hs, hx]
      · rw [List.dropWhile_cons_of_neg (by simpa using hx)]
        exact Run.step hne hd hi hrest

/-- `advanceToNextUnique` from a position whose remaining elements are `L`. -/
theorem distinct_advance_spec {ops : IterOps H I T} (hl : Lawful ops) {e c : I}
    {h h' : H} {L : List T} (a : Nat) (sets : SeenHeap T) (s : List T)
    (hs : sets[a]? = some s) (hr : Run ops e c h L h') :
    ∃ c1 h1, DistinctIterator.advanceToNextUnique ops ⟨c, e, a⟩ (h, sets) =
        .ok (⟨c1, e, a⟩, (h1, sets.set a
          (match L.dropWhile (fun x => decide (x ∈ s)) with
           | [] => s
           | y :: _ => s.insert y))) ∧
      Run ops e c1 h1 (L.dropWhile (fun x => decide (x ∈ s))) h' := by
  obtain ⟨c1, h1, hskip, hrun⟩ := distinct_skip_run a sets s hs hr
  refine ⟨c1, h1, ?_, hrun⟩
  have hsk := hskip (ops.rem c + 1) (Nat.lt_succ_of_le (hr.length_le_rem hl))
  generalize List.dropWhile (fun x => decide (x ∈ s)) L = L1 at hrun ⊢
  cases hrun with
  | done heq =>
    simp [DistinctIterator.advanceToNextUnique, hsk, heq, set_of_getElem? sets a s hs]
  | step hne hd hi hrest =>
    simp [DistinctIterator.advanceToNextUnique, hsk, hne, hd, hs]

/-- The traversal by a `DistinctIterator` that rests on the first of the remaining
elements `L`: it yields that element, then the later ones not in its `seen` set. -/
theorem distinct_rest_run {ops : IterOps H I T} (hl : Lawful ops) (e : I) (a : Nat)
    (dl : DistinctIterator I) (hdl : dl.current = e) (h' : H) :
    ∀ n (L : List T), L.length ≤ n → ∀ (c : I) (h : H) (sets : SeenHeap T) (s : List T),
      sets[a]? = some s → Run ops e c h L h' →
      Run (DistinctIterator.ops ops) dl ⟨c, e, a⟩ (h, sets)
        (match L with
         | [] => []
         | y :: ys => y :: distinctFrom s ys)
        (h', sets.set a (seenAfter s L.tail)) := by
  intro n
  induction n with
  | zero =>
    intro L hn c h sets s hs hr
    have : L = [] := List.length_eq_zero.mp (Nat.le_zero.mp hn)
    subst this
    cases hr with
    | done heq =>
      simp only [seenAfter, List.tail_nil, List.foldl_nil, set_of_getElem? sets a s hs]
      exact Run.done (by simp [DistinctIterator.ops, hdl, heq])
  | succ n ih =>
    intro L hn c h sets s hs hr
    cases hr with
    | done heq =>
      simp only [seenAfter, List.tail_nil, List.foldl_nil, set_of_getElem? sets a s hs]
      exact Run.done (by simp [DistinctIterator.ops, hdl, heq])
    | @step _ c2 _ h2 _ y ys hne hd hi hrest =>
      obtain ⟨c3, h3, hadv, hrun3⟩ := distinct_advance_spec hl a sets s hs hrest
      have hlen : (ys.dropWhile (fun x => decide (x ∈ s))).length ≤ n := by
        have := (List.dropWhile_sublist (fun x => decide (x ∈ s)) (l := ys)).length_le
        simp only [List.length_cons] at hn
        omega
      have hinc : (DistinctIterator.ops ops).incr ⟨c, e, a⟩ (h, sets) =
          .ok (⟨c3, e, a⟩, (h3, sets.set a
            (match ys.dropWhile (fun x => decide (x ∈ s)) with
             | [] => s
             | y :: _ => s.insert y))) := by
        simp [DistinctIterator.ops, DistinctIterator.incr, hi, hadv]
      have hstep := fun s1 => ih _ hlen c3 h3 (sets.set a s1) s1 (getElem?_set_of_some sets a s s1 hs)
        hrun3
      generalize hL3 : ys.dropWhile (fun x => decide (x ∈ s)) = L3 at hinc hstep
      cases L3 with
      | nil =>
        have hnil := dropWhile_seen_nil s ys hL3
        have hs1 := hstep s
        simp only [seenAfter, List.tail_nil, List.foldl_nil, List.set_set] at hs1
        simp only [List.tail_cons, hnil.1, hnil.2]
        refine Run.step ?_ hd hinc hs1
        simp [DistinctIterator.ops, hdl, hne]
      | cons y' ys' =>
        have hcons := dropWhile_seen_cons s y' ys' ys hL3
        have hs1 := hstep (s.insert y')
        simp only [List.tail_cons, List.set_set] at hs1
        simp only [List.tail_cons, hcons.1, hcons.2]
        refine Run.step ?_ hd hinc hs1
        simp [DistinctIterator.ops, hdl, hne]

theorem distinctFrom_mem (L : List T) : ∀ (s : List T) (x : T),
    x ∈ distinctFrom s L ↔ x ∈ L ∧ x ∉ s := by
  induction L with
  | nil => intro s x; simp [distinctFrom]
  | cons z zs ih =>
    intro s x
    by_cases hz : z ∈ s
    · simp only [distinctFrom, hz, if_true, ih, List.mem_cons]
      constructor
      · rintro ⟨h1, h2⟩; exact ⟨Or.inr h1, h2⟩
      · rintro ⟨h1 | h1, h2⟩
        · subst h1; exact absurd hz h2
        · exact ⟨h1, h2⟩
    · simp only [distinctFrom, hz, if_false, List.mem_cons, ih, List.mem_insert_iff, not_or]
      constructor
      · rintro (h1 | ⟨h1, h2, h3⟩)
        · subst h1; exact ⟨Or.inl rfl, hz⟩
        · exact ⟨Or.inr h1, h3⟩
      · rintro ⟨h1 | h1, h2⟩
        · exact Or.inl h1
        · by_cases hxz : x = z
          · exact Or.inl hxz
          · exact Or.inr ⟨h1, hxz, h2⟩

theorem distinctFrom_nodup (L : List T) : ∀ s : List T, (distinctFrom s L).Nodup := by
  induction L with
  | nil => intro s; simp [distinctFrom]
  | cons z zs ih =>
    intro s
    by_cases hz : z ∈ s
    · simp [distinctFrom, hz, ih]
    · simp [distinctFrom, hz, ih, distinctFrom_mem]

theorem distinctFrom_length (L : List T) : ∀ s : List T, (distinctFrom s L).length ≤ L.length := by
  induction L with
  | nil => intro s; simp [distinctFrom]
  | cons z zs ih =>
    intro s
    by_cases hz : z ∈ s
    · simp only [distinctFrom, hz, if_true, List.length_cons]
      exact Nat.le_succ_of_le (ih s)
    · simp only [distinctFrom, hz, if_false, List.length_cons]
      exact Nat.succ_le_succ (ih _)

theorem distinctFrom_indexOf (L : List T) : ∀ (s : List T) (x y : T), x ∉ s → y ∉ s →
    x ∈ L → y ∈ L →
    ((distinctFrom s L).indexOf x < (distinctFrom s L).indexOf y ↔
      L.indexOf x < L.indexOf y) := by
  induction L with
  | nil => intro s x y _ _ hx; simp at hx
  | cons z zs ih =>
    intro s x y hxs hys hx hy
    by_cases hz : z ∈ s
    · have hxz : z ≠ x := fun e => hxs (e ▸ hz)
      have hyz : z ≠ y := fun e => hys (e ▸ hz)
      have hx' : x ∈ zs := by
        rcases List.mem_cons.mp hx with h | h
        · exact absurd h.symm hxz
        · exact h
      have hy' : y ∈ zs := by
        rcases List.mem_cons.mp hy with h | h
        · exact absurd h.symm hyz
        · exact h
      simp only [distinctFrom, hz, if_true, List.indexOf_cons_ne _ hxz, List.indexOf_cons_ne _ hyz]
      rw [ih s x y hxs hys hx' hy']
      omega
    · simp only [distinctFrom, hz, if_false]
      by_cases hxz : z = x
      · subst hxz
        by_cases hyz : z = y
        · subst hyz; simp
        · simp [List.indexOf_cons_ne _ hyz]
      · by_cases hyz : z = y
        · subst hyz
          simp
        · have hx' : x ∈ zs := by
            rcases List.mem_cons.mp hx with h | h
            · exact absurd h.symm hxz
            · exact h
          have hy' : y ∈ zs := by
            rcases List.mem_cons.mp hy with h | h
            · exact absurd h.symm hyz
            · exact h
          simp only [List.indexOf_cons_ne _ hxz, List.indexOf_cons_ne _ hyz,
            Nat.succ_lt_succ_iff]
          exact ih (s.insert z) x y (by simp [hxs, Ne.symm hxz]) (by simp [hys, Ne.symm hyz])
            hx' hy'

theorem Range.Distinct_spec {ops : IterOps H I T} (hl : Lawful ops) (r : Range T I)
    {h h' : H} {L : List T} (sets : SeenHeap T) (hr : Run ops r.end r.begin h L h')
    (hrefl : ops.eq r.end r.end = true) :
    ∃ c1 h1, r.Distinct ops (h, sets) =
        .ok (Range.ofIterators ⟨c1, r.end, sets.length⟩ ⟨r.end, r.end, sets.length + 1⟩,
          (h1, sets ++ [L.take 1] ++ [[]])) ∧
      Run ops r.end c1 h1 L h' := by
  obtain ⟨c1, h1, hadv, hrun⟩ := distinct_advance_spec hl sets.length (sets ++ [[]]) []
    (List.getElem?_concat_length sets []) hr
  have hdw : L.dropWhile (fun x => decide (x ∈ ([] : List T))) = L := by
    cases L <;> simp [List.dropWhile]
  rw [hdw] at hadv hrun
  refine ⟨c1, h1, ?_, hrun⟩
  have hset : ∀ L' : List T, (sets ++ [([] : List T)]).set sets.length
      (match L' with
       | [] => []
       | y :: _ => List.insert y []) = sets ++ [L'.take 1] := by
    intro L'
    cases L' <;> simp
  rw [hset L] at hadv
  simp only [Range.begin, Range.end] at hadv hrefl ⊢
  have hb : DistinctIterator.new ops r.beginIndex r.endIndex (h, sets) =
      .ok (⟨c1, r.endIndex, sets.length⟩, (h1, sets ++ [L.take 1])) := by
    simpa [DistinctIterator.new] using hadv
  have he : DistinctIterator.new ops r.endIndex r.endIndex (h1, sets ++ [L.take 1]) =
      .ok (⟨r.endIndex, r.endIndex, sets.length + 1⟩, (h1, sets ++ [L.take 1] ++ [[]])) := by
    simp [DistinctIterator.new, DistinctIterator.advanceToNextUnique, DistinctIterator.skip,
      hrefl]
  simp [Range.Distinct, hb, he]

theorem Range.Distinct_run {ops : IterOps H I T} (hl : Lawful ops) (r : Range T I)
    {h h' : H} {L : List T} (sets : SeenHeap T) (hr : Run ops r.end r.begin h L h')
    (hrefl : ops.eq r.end r.end = true) :
    ∃ q st st', r.Distinct ops (h, sets) = .ok (q, st) ∧
      Run (DistinctIterator.ops ops) q.end q.begin st (distinctFrom [] L) st' := by
  obtain ⟨c1, h1, hq, hrun⟩ := Range.Distinct_spec hl r sets hr hrefl
  refine ⟨_, _, (h', (sets ++ [L.take 1] ++ [[]]).set sets.length
    (seenAfter (L.take 1) L.tail)), hq, ?_⟩
  have hcell : (sets ++ [L.take 1] ++ [[]])[sets.length]? = some (L.take 1) := by
    rw [List.getElem?_append_left (by simp)]
    exact List.getElem?_concat_length sets _
  have := distinct_rest_run hl r.end sets.length
    ⟨r.end, r.end, sets.length + 1⟩ rfl h' L.length L (Nat.le_refl _) c1 h1 _ _ hcell hrun
  cases L with
  | nil => simpa [distinctFrom, Range.begin, Range.end, Range.ofIterators] using this
  | cons y ys =>
    simpa [distinctFrom, Range.begin, Range.end, Range.ofIterators] using this

/-- C3. For every sequence `S`, one forward traversal of `From(S).Distinct()` from
`begin()` to `end()` (a range-based `for` collecting the elements, as `Aggregate` runs
it) succeeds and yields a list `L` without repetition, holding exactly the values of
`S`, ordered as their first occurrences in `S` are; `Count()` on the fresh query
returns the length of `L`, which is at most the length of `S`. -/
theorem distinct_traversal_first_occurrences (S : List T) (h : H) (sets : SeenHeap T) :
    ∃ L st,
      ((From S).Distinct Ptr.ops).bind
          (fun q => q.Aggregate (DistinctIterator.ops Ptr.ops) [] (fun v x => v ++ [x]))
          (h, sets) = .ok (L, st) ∧
      ((From S).Distinct Ptr.ops).bind
          (fun q => q.Count (DistinctIterator.ops Ptr.ops)) (h, sets) = .ok (L.length, st) ∧
      L.Nodup ∧ (∀ x, x ∈ L ↔ x ∈ S) ∧
      (∀ x ∈ S, ∀ y ∈ S, (L.indexOf x < L.indexOf y ↔ S.indexOf x < S.indexOf y)) ∧
      L.length ≤ S.length := by
  obtain ⟨q, st, st', hq, hrun⟩ :=
    Range.Distinct_run ptr_lawful (From S) sets (From_run S h) (by simp [Ptr.ops])
  refine ⟨distinctFrom [] S, st', ?_, ?_, distinctFrom_nodup S [], ?_, ?_,
    distinctFrom_length S []⟩
  · simp [Exec.bind, hq, Range.Aggregate,
      forEach_run (distinct_lawful ptr_lawful) hrun, foldl_push]
  · simp [Exec.bind, hq, Range.Count_run (distinct_lawful ptr_lawful) q hrun]
  · intro x; simp [distinctFrom_mem]
  · intro x hx y hy
    exact distinctFrom_indexOf S [] x y (by simp) (by simp) hx hy

end


section
variable {H I T : Type}

theorem ofData_run (data : List T) (h : H) :
    Run (Ptr.ops : IterOps H (Ptr T) T) (Range.ofData data).end (Range.ofData data).begin h
      data h := by
  have := ptr_run data data.length (Nat.le_refl _) h data.length 0 rfl (Nat.zero_le _)
  simpa [Range.ofData, Range.begin, Range.end] using this

theorem Range.Reverse_run {ops : IterOps H I T} (hl : Lawful ops) (hp : StoreFree ops)
    (r : Range T I) {h h' : H} {L : List T} (hr : Run ops r.end r.begin h L h') :
    r.Reverse ops h = .ok (Range.ofData L.reverse, h) := by
  have hv := Range.ToVector_run hl hp r hr
  simp only [Range.ToVector] at hv
  simp [Range.Reverse, hv]

/-- C2. For every sequence `S` and transform `f`, `From(S).Select(f).ToVector()` returns
a vector of the length of `S` whose element at every index `i` is `f(S[i])`. -/
theorem select_toVector_pointwise {U : Type} (S : List T) (f : T → U) (h : H) :
    ∃ v, ((From S).Select f).ToVector (SelectIterator.ops Ptr.ops) h = .ok (v, h) ∧
      v.length = S.length ∧ ∀ (i : Nat) (hi : i < S.length), v[i]? = some (f S[i]) := by
  refine ⟨S.map f, ?_, by simp, ?_⟩
  · exact Range.ToVector_run (select_lawful ptr_lawful) (select_storeFree ptr_storeFree) _
      (Range.Select_run (From S) f (From_run S h))
  · intro i hi
    simp [hi]

/-- C9. For every collection `C`, in particular every non-empty one,
`From(C).ToVector()` (and `ToArray()`, which forwards to it) returns the element
sequence of `C` itself: the same length, elements and order. -/
theorem from_toVector_roundtrip (C : List T) (h : H) :
    (From C).ToVector Ptr.ops h = .ok (C, h) ∧ (From C).ToArray Ptr.ops h = .ok (C, h) := by
  have := Range.ToVector_run ptr_lawful ptr_storeFree (From C) (From_run C h)
  exact ⟨this, this⟩

/-- C7. For every sequence `S`, `From(S).Reverse().ToVector()` is `S` in reversed order
and `From(S).Reverse().Reverse().ToVector()` is `S` itself. -/
theorem reverse_reverse_toVector (S : List T) (h : H) :
    ((From S).Reverse Ptr.ops).bind (fun r => r.ToVector Ptr.ops) h = .ok (S.reverse, h) ∧
      (((From S).Reverse Ptr.ops).bind (fun r => r.Reverse Ptr.ops)).bind
        (fun r => r.ToVector Ptr.ops) h = .ok (S, h) := by
  have h1 := Range.Reverse_run ptr_lawful ptr_storeFree (From S) (From_run S h)
  have h2 := Range.Reverse_run ptr_lawful ptr_storeFree (Range.ofData S.reverse)
    (ofData_run S.reverse h)
  have v1 := Range.ToVector_run ptr_lawful ptr_storeFree (Range.ofData S.reverse)
    (ofData_run S.reverse h)
  have v2 := Range.ToVector_run ptr_lawful ptr_storeFree (Range.ofData S.reverse.reverse)
    (ofData_run S.reverse.reverse h)
  constructor
  · simp [Exec.bind, h1, v1]
  · rw [List.reverse_reverse] at h2 v2
    simp [Exec.bind, h1, h2, v2]

theorem swo_lt {K : Type} [LinearOrder K] (k : T → K) :
    StrictWeakOrder (fun a b => decide (k a < k b)) where
  irrefl := by intro a; simp
  trans := by
    intro a b c hab hbc
    simp only [decide_eq_true_eq] at hab hbc ⊢
    exact lt_trans hab hbc
  equiv_trans := by
    intro a b c h1 h2 h3 h4
    simp only [decide_eq_false_iff_not, not_lt] at h1 h2 h3 h4 ⊢
    exact ⟨le_trans h3 h1, le_trans h2 h4⟩

theorem swo_gt {K : Type} [LinearOrder K] (k : T → K) :
    StrictWeakOrder (fun a b => decide (k a > k b)) where
  irrefl := by intro a; simp
  trans := by
    intro a b c hab hbc
    simp only [gt_iff_lt, decide_eq_true_eq] at hab hbc ⊢
    exact lt_trans hbc hab
  equiv_trans := by
    intro a b c h1 h2 h3 h4
    simp only [gt_iff_lt, decide_eq_false_iff_not, not_lt] at h1 h2 h3 h4 ⊢
    exact ⟨le_trans h1 h3, le_trans h4 h2⟩

theorem stableSort_perm (comp : T → T → Bool) (l : List T) : (stableSort comp l).Perm l :=
  List.perm_insertionSort _ l

theorem stableSort_sorted {comp : T → T → Bool} (hc : StrictWeakOrder comp) (l : List T) :
    (stableSort comp l).Pairwise (fun a b => comp b a = false) :=
  insertionStdSort.sorted comp l hc

/-- Stability: the elements selected by `P`, when no one of them compares less than
an earlier one, stay in their order. -/
theorem stableSort_filter (comp : T → T → Bool) (P : T → Bool) (l : List T)
    (hP : ∀ a b, P a = true → P b = true → comp b a = false) :
    (stableSort comp l).filter P = l.filter P := by
  have hpw : (l.filter P).Pairwise (fun a b => comp b a = false) := by
    rw [List.pairwise_iff_forall_sublist]
    intro a b hab
    have ha : a ∈ l.filter P := hab.subset (by simp)
    have hb : b ∈ l.filter P := hab.subset (by simp)
    exact hP a b (List.mem_filter.mp ha).2 (List.mem_filter.mp hb).2
  have hsub : List.Sublist (l.filter P) (stableSort comp l) :=
    List.sublist_insertionSort hpw (List.filter_sublist l)
  have hsub2 := hsub.filter P
  rw [List.filter_filter] at hsub2
  simp only [Bool.and_self] at hsub2
  have hlen : ((stableSort comp l).filter P).length = (l.filter P).length :=
    ((stableSort_perm comp l).filter P).length_eq
  exact (hsub2.eq_of_length hlen.symm).symm

theorem Range.OrderBy_run {K : Type} [LinearOrder K] (alg : StdSort) {ops : IterOps H I T}
    (hl : Lawful ops) (hp : StoreFree ops) (r : Range T I) (ks : T → K) {h h' : H}
    {L : List T} (hr : Run ops r.end r.begin h L h') :
    r.OrderBy alg ops ks h =
      .ok (⟨Range.ofData (alg.sort (fun a b => decide (ks a < ks b)) L)⟩, h) := by
  have hv := Range.ToVector_run hl hp r hr
  simp only [Range.ToVector] at hv
  simp [Range.OrderBy, hv]

theorem Range.OrderByDescending_run {K : Type} [LinearOrder K] (alg : StdSort)
    {ops : IterOps H I T} (hl : Lawful ops) (hp : StoreFree ops) (r : Range T I) (ks : T → K)
    {h h' : H} {L : List T} (hr : Run ops r.end r.begin h L h') :
    r.OrderByDescending alg ops ks h =
      .ok (⟨Range.ofData (alg.sort (fun a b => decide (ks a > ks b)) L)⟩, h) := by
  have hv := Range.ToVector_run hl hp r hr
  simp only [Range.ToVector] at hv
  simp [Range.OrderByDescending, hv]

theorem stableSortInPlace_whole (comp : T → T → Bool) (data : List T) :
    stableSortInPlace comp ⟨data, 0⟩ ⟨data, data.length⟩ = stableSort comp data := by
  simp [stableSortInPlace]

theorem ThenBy_ofData {K : Type} [LinearOrder K] (data : List T) (ks : T → K) :
    (OrderedRange.ThenBy ⟨Range.ofData data⟩ ks) =
      ⟨Range.ofData (stableSort (fun a b => decide (ks a < ks b)) data)⟩ := by
  have hlen : (stableSort (fun a b => decide (ks a < ks b)) data).length = data.length :=
    List.length_insertionSort _ _
  simp [OrderedRange.ThenBy, Range.ofData, stableSortInPlace_whole, hlen]

theorem ofData_toVector (data : List T) (h : H) :
    (Range.ofData data).ToVector Ptr.ops h = .ok (data, h) :=
  Range.ToVector_run ptr_lawful ptr_storeFree _ (ofData_run data h)

/-- C4. For every sequence `S` and key selector `k` into a linearly ordered key type,
and every conforming `std::sort`, `OrderBy(k).ToVector()` is a permutation of `S` that is
non-decreasing under `k`, and `OrderByDescending(k).ToVector()` is a permutation of `S`
that is non-increasing under `k`. -/
theorem orderBy_sorted_permutation {K : Type} [LinearOrder K] (alg : StdSort) (S : List T)
    (k : T → K) (h : H) :
    (∃ v, ((From S).OrderBy alg Ptr.ops k).bind (fun r => r.toRange.ToVector Ptr.ops) h
          = .ok (v, h) ∧ v.Perm S ∧ v.Pairwise (fun a b => k a ≤ k b)) ∧
      (∃ v, ((From S).OrderByDescending alg Ptr.ops k).bind
            (fun r => r.toRange.ToVector Ptr.ops) h
          = .ok (v, h) ∧ v.Perm S ∧ v.Pairwise (fun a b => k a ≥ k b)) := by
  constructor
  · refine ⟨alg.sort (fun a b => decide (k a < k b)) S, ?_, alg.perm _ S (swo_lt k), ?_⟩
    · simp [Exec.bind, Range.OrderBy_run alg ptr_lawful ptr_storeFree (From S) k (From_run S h),
        ofData_toVector]
    · refine (alg.sorted _ S (swo_lt k)).imp ?_
      intro a b hab
      simpa using hab
  · refine ⟨alg.sort (fun a b => decide (k a > k b)) S, ?_, alg.perm _ S (swo_gt k), ?_⟩
    · simp [Exec.bind,
        Range.OrderByDescending_run alg ptr_lawful ptr_storeFree (From S) k (From_run S h),
        ofData_toVector]
    · refine (alg.sorted _ S (swo_gt k)).imp ?_
      intro a b hab
      simpa using hab

theorem orderBy_thenBy_run {K1 K2 : Type} [LinearOrder K1] [LinearOrder K2] (alg : StdSort)
    (S : List T) (k1 : T → K1) (k2 : T → K2) (h : H) :
    ((From S).OrderBy alg Ptr.ops k1).bind (fun r => (r.ThenBy k2).toRange.ToVector Ptr.ops) h
      = .ok (stableSort (fun a b => decide (k2 a < k2 b))
          (alg.sort (fun a b => decide (k1 a < k1 b)) S), h) := by
  simp [Exec.bind, Range.OrderBy_run alg ptr_lawful ptr_storeFree (From S) k1 (From_run S h),
    ThenBy_ofData, ofData_toVector]

/-- C5. For every sequence `S` and key selectors `k1`, `k2`, the result `v` of
`OrderBy(k1).ThenBy(k2)` is non-decreasing under `k2`; the elements having any one
`k2` value appear in `v` exactly in the order `OrderBy(k1)` had put them in (`w`); so
two elements of `v` with equal `k2` are in non-decreasing `k1` order.  The last key
applied dominates. -/
theorem orderBy_thenBy_last_key_dominates {K1 K2 : Type} [LinearOrder K1] [LinearOrder K2]
    (alg : StdSort) (S : List T) (k1 : T → K1) (k2 : T → K2) (h : H) :
    ∃ w v,
      ((From S).OrderBy alg Ptr.ops k1).bind (fun r => r.toRange.ToVector Ptr.ops) h
        = .ok (w, h) ∧
      ((From S).OrderBy alg Ptr.ops k1).bind
          (fun r => (r.ThenBy k2).toRange.ToVector Ptr.ops) h = .ok (v, h) ∧
      v.Pairwise (fun a b => k2 a ≤ k2 b) ∧
      (∀ c, v.filter (fun x => decide (k2 x = c)) = w.filter (fun x => decide (k2 x = c))) ∧
      v.Pairwise (fun a b => k2 a = k2 b → k1 a ≤ k1 b) := by
  have hw : (alg.sort (fun a b => decide (k1 a < k1 b)) S).Pairwise (fun a b => k1 a ≤ k1 b) :=
    (alg.sorted _ S (swo_lt k1)).imp (by intro a b hab; simpa using hab)
  have hfilter : ∀ c, (stableSort (fun a b => decide (k2 a < k2 b))
        (alg.sort (fun a b => decide (k1 a < k1 b)) S)).filter (fun x => decide (k2 x = c)) =
      (alg.sort (fun a b => decide (k1 a < k1 b)) S).filter (fun x => decide (k2 x = c)) := by
    intro c
    apply stableSort_filter
    intro a b ha hb
    simp only [decide_eq_true_eq] at ha hb
    simp [ha, hb]
  refine ⟨alg.sort (fun a b => decide (k1 a < k1 b)) S, _, ?_, orderBy_thenBy_run alg S k1 k2 h,
    ?_, hfilter, ?_⟩
  · simp [Exec.bind, Range.OrderBy_run alg ptr_lawful ptr_storeFree (From S) k1 (From_run S h),
      ofData_toVector]
  · refine (stableSort_sorted (swo_lt k2) _).imp ?_
    intro a b hab
    simpa using hab
  · rw [List.pairwise_iff_forall_sublist]
    intro a b hab hk
    have h1 := hab.filter (fun x => decide (k2 x = k2 a))
    rw [hfilter (k2 a)] at h1
    have h2 : List.filter (fun x => decide (k2 x = k2 a)) [a, b] = [a, b] := by
      simp [List.filter, hk.symm]
    rw [h2] at h1
    have h3 := h1.trans (List.filter_sublist _)
    exact List.pairwise_iff_forall_sublist.mp hw h3

theorem perm_pair_cases {w : List T} {a b : T} (hw : w.Perm [a, b]) :
    w = [a, b] ∨ w = [b, a] := by
  have hlen := hw.length_eq
  match w, hlen with
  | [x, y], _ =>
    have hx : x ∈ [a, b] := hw.subset (by simp)
    simp only [List.mem_cons, List.mem_singleton, List.not_mem_nil, or_false] at hx
    rcases hx with rfl | rfl
    · have := (List.perm_cons x).mp hw
      rw [List.perm_singleton] at this
      simp at this
      left; rw [this]
    · have h2 : [x, y].Perm [x, a] := hw.trans (List.Perm.swap x a [])
      have := (List.perm_cons x).mp h2
      rw [List.perm_singleton] at this
      simp at this
      right; rw [this]

/-- C6. On the input `[(1, 2), (2, 1)]` with `k1` the first and `k2` the second
component, `OrderBy(k1).ThenBy(k2)` returns `[(2, 1), (1, 2)]` whatever conforming
`std::sort` is used, and this result is not non-decreasing under `k1`: the key applied
last has the highest priority, not the lowest. -/
theorem orderBy_thenBy_breaks_primary_key (alg : StdSort) :
    ∃ v, ((From [((1 : Nat), (2 : Nat)), (2, 1)]).OrderBy alg Ptr.ops Prod.fst).bind
          (fun r => (r.ThenBy Prod.snd).toRange.ToVector Ptr.ops) () = .ok (v, ()) ∧
      v = [(2, 1), (1, 2)] ∧ ¬ v.Pairwise (fun a b => a.1 ≤ b.1) := by
  refine ⟨_, orderBy_thenBy_run alg _ Prod.fst Prod.snd (), ?_⟩
  have hperm := alg.perm (fun (a b : Nat × Nat) => decide (a.1 < b.1)) [(1, 2), (2, 1)]
    (swo_lt Prod.fst)
  rcases perm_pair_cases hperm with hw | hw
  · rw [hw]
    constructor
    · decide
    · decide
  · rw [hw]
    constructor
    · decide
    · decide

end

section
variable {H I J T : Type} [DecidableEq T]

theorem mem_seenAfter (L : List T) : ∀ (s : List T) (x : T),
    x ∈ seenAfter s L ↔ x ∈ s ∨ x ∈ L := by
  induction L with
  | nil => intro s x; simp [seenAfter]
  | cons z zs ih =>
    intro s x
    have := ih (s.insert z) x
    simp only [seenAfter, List.foldl_cons] at this ⊢
    rw [this]
    simp only [List.mem_insert_iff, List.mem_cons]
    tauto

theorem foldl_unionStep (L : List T) : ∀ d s : List T,
    L.foldl unionStep (d, s) = (d ++ distinctFrom s L, seenAfter s L) := by
  induction L with
  | nil => intro d s; simp [distinctFrom, seenAfter]
  | cons z zs ih =>
    intro d s
    by_cases hz : z ∈ s
    · have hins : s.insert z = s := List.insert_of_mem hz
      simp [unionStep, hz, ih, distinctFrom, seenAfter, hins]
    · simp [unionStep, hz, ih, distinctFrom, seenAfter]

theorem distinctFrom_append (A B : List T) : ∀ s : List T,
    distinctFrom s (A ++ B) = distinctFrom s A ++ distinctFrom (seenAfter s A) B := by
  induction A with
  | nil => intro s; simp [distinctFrom, seenAfter]
  | cons z zs ih =>
    intro s
    by_cases hz : z ∈ s
    · have hins : s.insert z = s := List.insert_of_mem hz
      simp [distinctFrom, hz, ih, seenAfter, hins]
    · simp [distinctFrom, hz, ih, seenAfter]

theorem foldl_intersectStep (o : List T) (L : List T) : ∀ acc : List T × List T,
    L.foldl (intersectStep o) acc = (L.filter (fun x => decide (x ∈ o))).foldl unionStep acc := by
  induction L with
  | nil => intro acc; simp
  | cons z zs ih =>
    intro acc
    by_cases hz : z ∈ o
    · by_cases hs : z ∈ acc.2
      · simp [intersectStep, unionStep, hz, hs, ih]
      · simp [intersectStep, unionStep, hz, hs, ih]
    · simp [intersectStep, hz, ih]

theorem foldl_exceptStep (o : List T) (L : List T) : ∀ acc : List T × List T,
    L.foldl (exceptStep o) acc = (L.filter (fun x => decide (x ∉ o))).foldl unionStep acc := by
  induction L with
  | nil => intro acc; simp
  | cons z zs ih =>
    intro acc
    by_cases hz : z ∈ o
    · simp [exceptStep, hz, ih]
    · by_cases hs : z ∈ acc.2
      · simp [exceptStep, unionStep, hz, hs, ih]
      · simp [exceptStep, unionStep, hz, hs, ih]

theorem unorderedSetFromRange_run {ops : IterOps H I T} (hl : Lawful ops) {last it : I}
    {h h' : H} {L : List T} (hr : Run ops last it h L h') :
    unorderedSetFromRange ops it last h = .ok (seenAfter [] L, h') := by
  simp [unorderedSetFromRange, forEach_run hl hr, seenAfter]

theorem Range.Union_spec {ops : IterOps H I T} {ops' : IterOps H J T} (hl : Lawful ops)
    (hl' : Lawful ops') (r : Range T I) (other : Range T J) {h h1 h2 : H} {A B : List T}
    (hr : Run ops r.end r.begin h A h1) (hr' : Run ops' other.end other.begin h1 B h2) :
    r.Union ops ops' other h = .ok (Range.ofData (distinctFrom [] (A ++ B)), h2) := by
  simp [Range.Union, forEach_run hl hr, forEach_run hl' hr', foldl_unionStep,
    distinctFrom_append]

theorem Range.Intersect_spec {ops : IterOps H I T} {ops' : IterOps H J T} (hl : Lawful ops)
    (hl' : Lawful ops') (r : Range T I) (other : Range T J) {h h1 h2 : H} {A B : List T}
    (hr' : Run ops' other.end other.begin h B h1) (hr : Run ops r.end r.begin h1 A h2) :
    r.Intersect ops ops' other h =
      .ok (Range.ofData (distinctFrom [] (A.filter (fun x => decide (x ∈ B)))), h2) := by
  have hf : A.filter (fun x => decide (x ∈ seenAfter [] B)) =
      A.filter (fun x => decide (x ∈ B)) := by
    apply List.filter_congr
    intro x _
    simp [mem_seenAfter]
  simp [Range.Intersect, unorderedSetFromRange_run hl' hr', forEach_run hl hr,
    foldl_intersectStep, foldl_unionStep, hf]

theorem Range.Except_spec {ops : IterOps H I T} {ops' : IterOps H J T} (hl : Lawful ops)
    (hl' : Lawful ops') (r : Range T I) (other : Range T J) {h h1 h2 : H} {A B : List T}
    (hr' : Run ops' other.end other.begin h B h1) (hr : Run ops r.end r.begin h1 A h2) :
    r.Except ops ops' other h =
      .ok (Range.ofData (distinctFrom [] (A.filter (fun x => decide (x ∉ B)))), h2) := by
  have hf : A.filter (fun x => decide (x ∉ seenAfter [] B)) =
      A.filter (fun x => decide (x ∉ B)) := by
    apply List.filter_congr
    intro x _
    simp [mem_seenAfter]
  simp only [decide_not] at hf
  simp [Range.Except, unorderedSetFromRange_run hl' hr', forEach_run hl hr,
    foldl_exceptStep, foldl_unionStep, hf]

/-- C8. For all sequences `A` and `B`, the outputs of `A.Union(B)`, `A.Intersect(B)` and
`A.Except(B)` hold no element twice; every element of the intersection is in `A` and in
`B`; every element of the difference is in `A` and not in `B`; every element of `A` or
of `B` is in the union. -/
theorem set_operators_nodup_and_bounds (A B : List T) (h : H) :
    ∃ u i e,
      ((From A).Union Ptr.ops Ptr.ops (From B)).bind (fun r => r.ToVector Ptr.ops) h
        = .ok (u, h) ∧
      ((From A).Intersect Ptr.ops Ptr.ops (From B)).bind (fun r => r.ToVector Ptr.ops) h
        = .ok (i, h) ∧
      ((From A).Except Ptr.ops Ptr.ops (From B)).bind (fun r => r.ToVector Ptr.ops) h
        = .ok (e, h) ∧
      u.Nodup ∧ i.Nodup ∧ e.Nodup ∧
      (∀ x ∈ i, x ∈ A ∧ x ∈ B) ∧ (∀ x ∈ e, x ∈ A ∧ x ∉ B) ∧
      (∀ x, x ∈ A ∨ x ∈ B → x ∈ u) := by
  refine ⟨distinctFrom [] (A ++ B), distinctFrom [] (A.filter (fun x => decide (x ∈ B))),
    distinctFrom [] (A.filter (fun x => decide (x ∉ B))), ?_, ?_, ?_,
    distinctFrom_nodup _ _, distinctFrom_nodup _ _, distinctFrom_nodup _ _, ?_, ?_, ?_⟩
  · simp [Exec.bind,
      Range.Union_spec ptr_lawful ptr_lawful (From A) (From B) (From_run A h) (From_run B h),
      ofData_toVector]
  · simp [Exec.bind,
      Range.Intersect_spec ptr_lawful ptr_lawful (From A) (From B) (From_run B h)
        (From_run A h), ofData_toVector]
  · simp [Exec.bind,
      Range.Except_spec ptr_lawful ptr_lawful (From A) (From B) (From_run B h) (From_run A h),
      ofData_toVector]
  · intro x hx
    simpa [distinctFrom_mem] using hx
  · intro x hx
    simpa [distinctFrom_mem] using hx
  · intro x hx
    simpa [distinctFrom_mem] using hx

end

section
variable {H I T K V : Type} [LinearOrder K]

theorem emplace_mem (k : K) (v : V) : ∀ (m : StdMap K V) (e : K × V),
    e ∈ StdMap.emplace m k v → e = (k, v) ∨ e ∈ m
  | [], e, h => by simpa [StdMap.emplace] using h
  | (k0, v0) :: rest, e, h => by
    simp only [StdMap.emplace] at h
    split at h
    · simpa using h
    · split at h
      · rcases List.mem_cons.mp h with h1 | h1
        · exact Or.inr (h1 ▸ List.mem_cons_self _ _)
        · rcases emplace_mem k v rest e h1 with h2 | h2
          · exact Or.inl h2
          · exact Or.inr (List.mem_cons_of_mem _ h2)
      · exact Or.inr h

theorem emplace_sorted (k : K) (v : V) : ∀ (m : StdMap K V),
    m.Pairwise (fun a b => a.1 < b.1) → (StdMap.emplace m k v).Pairwise (fun a b => a.1 < b.1)
  | [], _ => by simp [StdMap.emplace]
  | (k0, v0) :: rest, hm => by
    simp only [StdMap.emplace]
    have hm' := List.pairwise_cons.mp hm
    split
    · rename_i hlt
      refine List.pairwise_cons.mpr ⟨?_, hm⟩
      intro e he
      rcases List.mem_cons.mp he with h1 | h1
      · rw [h1]; exact hlt
      · exact lt_trans hlt (hm'.1 e h1)
    · split
      · rename_i hlt
        refine List.pairwise_cons.mpr ⟨?_, emplace_sorted k v rest hm'.2⟩
        intro e he
        rcases emplace_mem k v rest e he with h1 | h1
        · rw [h1]; exact hlt
        · exact hm'.1 e h1
      · exact hm

theorem find_none_of_lt (k : K) : ∀ (m : StdMap K V), (∀ e ∈ m, k < e.1) → StdMap.find m k = none
  | [], _ => by simp [StdMap.find]
  | (k0, v0) :: rest, hm => by
    have h0 : k < k0 := hm (k0, v0) (List.mem_cons_self _ _)
    have hrest := find_none_of_lt k rest (fun e he => hm e (List.mem_cons_of_mem _ he))
    simp only [StdMap.find] at hrest ⊢
    rw [List.find?_cons_of_neg _ (by simpa using (ne_of_lt h0).symm)]
    exact hrest

theorem find_emplace (k : K) (v : V) (k' : K) : ∀ (m : StdMap K V),
    m.Pairwise (fun a b => a.1 < b.1) →
    StdMap.find (StdMap.emplace m k v) k' =
      if k' = k then some ((StdMap.find m k).getD v) else StdMap.find m k'
  | [], _ => by
    by_cases hk : k' = k
    · simp [StdMap.emplace, StdMap.find, hk]
    · simp [StdMap.emplace, StdMap.find, hk, Ne.symm hk]
  | (k0, v0) :: rest, hm => by
    have hm' := List.pairwise_cons.mp hm
    simp only [StdMap.emplace]
    split
    · rename_i hlt
      have hnone : StdMap.find ((k0, v0) :: rest) k = none := by
        apply find_none_of_lt
        intro e he
        rcases List.mem_cons.mp he with h1 | h1
        · rw [h1]; exact hlt
        · exact lt_trans hlt (hm'.1 e h1)
      by_cases hk : k' = k
      · subst hk
        rw [hnone]
        simp [StdMap.find]
      · simp only [hk, if_false]
        simp only [StdMap.find]
        rw [List.find?_cons_of_neg _ (by simpa using Ne.symm hk)]
    · split
      · rename_i hnlt hlt
        have ih := find_emplace k v k' rest hm'.2
        have hne : k0 ≠ k := ne_of_lt hlt
        by_cases hk0 : k0 = k'
        · have hk : k' ≠ k := hk0 ▸ hne
          simp [StdMap.find, hk0, hk]
        · have e1 : StdMap.find ((k0, v0) :: rest) k = StdMap.find rest k := by
            simp [StdMap.find, hne]
          have e2 : StdMap.find ((k0, v0) :: rest) k' = StdMap.find rest k' := by
            simp [StdMap.find, hk0]
          have e3 : StdMap.find ((k0, v0) :: StdMap.emplace rest k v) k' =
              StdMap.find (StdMap.emplace rest k v) k' := by
            simp [StdMap.find, hk0]
          rw [e3, ih, e1, e2]
      · rename_i hnlt hnlt'
        have hkk : k0 = k := le_antisymm (not_lt.mp hnlt) (not_lt.mp hnlt')
        by_cases hk : k' = k
        · simp [StdMap.find, hk, hkk]
        · simp [hk]

theorem foldl_emplace (ks : T → K) (vs : T → V) : ∀ (S : List T) (m : StdMap K V),
    m.Pairwise (fun a b => a.1 < b.1) →
    (S.foldl (fun (map : StdMap K V) item => map.emplace (ks item) (vs item)) m).Pairwise
        (fun a b => a.1 < b.1) ∧
      ∀ k, StdMap.find
          (S.foldl (fun (map : StdMap K V) item => map.emplace (ks item) (vs item)) m) k =
        match StdMap.find m k with
        | some v => some v
        | none => (S.find? (fun e => decide (ks e = k))).map vs
  | [], m, hm => by
    refine ⟨hm, ?_⟩
    intro k
    simp only [List.foldl_nil]
    generalize StdMap.find m k = o
    cases o <;> rfl
  | x :: xs, m, hm => by
    have ih := foldl_emplace ks vs xs (StdMap.emplace m (ks x) (vs x))
      (emplace_sorted _ _ m hm)
    refine ⟨ih.1, ?_⟩
    intro k
    rw [List.foldl_cons, ih.2 k, find_emplace _ _ _ m hm]
    by_cases hk : k = ks x
    · subst hk
      cases StdMap.find m (ks x) <;> simp
    · rw [List.find?_cons_of_neg _ (by simpa using Ne.symm hk)]
      simp [hk]

/-- C10. For every sequence `S`, key selector `ks` and value selector `vs`,
`ToMap(ks, vs)` returns a map (it does not fail) with strictly ascending, hence distinct,
keys; its keys are exactly the values `ks(e)` for `e` in `S`; each key `k` is mapped
to `vs(e)` for the first `e` in `S` with `ks(e) = k`; and `ToMap(ks)` is `ToMap(ks, vs)`
with `vs` the identity. -/
theorem toMap_first_occurrence_wins (S : List T) (ks : T → K) (vs : T → V) (h : H) :
    ∃ m, (From S).ToMap₂ Ptr.ops ks vs h = .ok (m, h) ∧
      m.Pairwise (fun a b => a.1 < b.1) ∧
      (∀ k, k ∈ m.map Prod.fst ↔ ∃ e ∈ S, ks e = k) ∧
      (∀ k, m.find k = (S.find? (fun e => decide (ks e = k))).map vs) ∧
      (From S).ToMap Ptr.ops ks h = (From S).ToMap₂ Ptr.ops ks id h := by
  have hf := foldl_emplace ks vs S [] List.Pairwise.nil
  have hfind : ∀ k, StdMap.find
      (S.foldl (fun (map : StdMap K V) item => map.emplace (ks item) (vs item)) []) k =
      (S.find? (fun e => decide (ks e = k))).map vs := by
    intro k
    rw [hf.2 k]
    simp [StdMap.find]
  refine ⟨_, ?_, hf.1, ?_, hfind, rfl⟩
  · simp [Range.ToMap₂, forEach_run ptr_lawful (From_run S h)]
  · intro k
    have h1 : k ∈ (S.foldl (fun (map : StdMap K V) item =>
          map.emplace (ks item) (vs item)) []).map Prod.fst ↔
        (StdMap.find (S.foldl (fun (map : StdMap K V) item =>
          map.emplace (ks item) (vs item)) []) k).isSome = true := by
      simp [StdMap.find, List.find?_isSome]
    rw [h1, hfind k]
    simp [List.find?_isSome]

end

section
variable {H I T : Type}

theorem From_where_run (S : List T) (p : T → Bool) (h : H) :
    ∃ q, (From S).Where Ptr.ops p h = .ok (q, h) ∧
      Run (WhereIterator.ops Ptr.ops) q.end q.begin h (S.filter p) h := by
  obtain ⟨q, h1, hq, hrun⟩ :=
    Range.Where_run ptr_lawful (From S) p (From_run S h) (by simp [Ptr.ops])
  have hs := hrun.store_eq (where_storeFree ptr_storeFree)
  subst hs
  exact ⟨q, hq, hrun⟩

theorem Range.First_run {ops : IterOps H I T} (r : Range T I) {h h' : H} {L : List T} :
    Run ops r.end r.begin h L h' →
    r.First ops h =
      match L with
      | [] => .error .emptySequence
      | x :: _ => .ok (x, h) := by
  intro hr
  cases hr with
  | done heq => simp [Range.First, heq]
  | step hne hd _ _ => simp [Range.First, hne, hd]

theorem Range.FirstOrDefault_run {ops : IterOps H I T} (r : Range T I) {h h' : H}
    {L : List T} (hr : Run ops r.end r.begin h L h') :
    r.FirstOrDefault ops h = .ok (L.head?, h) := by
  cases hr with
  | done heq => simp [Range.FirstOrDefault, heq]
  | step hne hd _ _ => simp [Range.FirstOrDefault, hne, hd]

theorem Range.Single_run {ops : IterOps H I T} (hp : StoreFree ops) (r : Range T I)
    {h h' : H} {L : List T} :
    Run ops r.end r.begin h L h' →
    r.Single ops h =
      match L with
      | [] => .error .emptySequence
      | [x] => .ok (x, h)
      | _ :: _ :: _ => .error .multipleElements := by
  intro hr
  cases hr with
  | done heq => simp [Range.Single, heq]
  | step hne hd hi hrest =>
    have hs := hp _ _ _ _ hi
    subst hs
    cases hrest with
    | done heq => simp [Range.Single, hne, hd, hi, heq]
    | step hne2 _ _ _ => simp [Range.Single, hne, hi, hne2]

theorem Range.SingleOrDefault_run {ops : IterOps H I T} (hp : StoreFree ops) (r : Range T I)
    {h h' : H} {L : List T} :
    Run ops r.end r.begin h L h' →
    r.SingleOrDefault ops h =
      match L with
      | [] => .ok (none, h)
      | [x] => .ok (some x, h)
      | _ :: _ :: _ => .error .multipleElements := by
  intro hr
  cases hr with
  | done heq => simp [Range.SingleOrDefault, heq]
  | step hne hd hi hrest =>
    have hs := hp _ _ _ _ hi
    subst hs
    cases hrest with
    | done heq => simp [Range.SingleOrDefault, hne, hd, hi, heq]
    | step hne2 _ _ _ => simp [Range.SingleOrDefault, hne, hi, hne2]

theorem elementAtLoop_run {ops : IterOps H I T} (hp : StoreFree ops) {last : I} {h : H} :
    ∀ (index : Nat) (it : I) (L : List T) (h' : H), Run ops last it h L h' →
      (index ≤ L.length → ∃ it', elementAtLoop ops last index it h = .ok (some it', h) ∧
          Run ops last it' h (L.drop index) h') ∧
      (L.length < index → elementAtLoop ops last index it h = .ok (none, h)) := by
  intro index
  induction index with
  | zero =>
    intro it L h' hr
    exact ⟨fun _ => ⟨it, by simp [elementAtLoop], by simpa using hr⟩, fun hlt => by simp at hlt⟩
  | succ n ih =>
    intro it L h' hr
    cases hr with
    | done heq =>
      exact ⟨fun hle => by simp at hle, fun _ => by simp [elementAtLoop, heq]⟩
    | step hne hd hi hrest =>
      have hs := hp _ _ _ _ hi
      subst hs
      have := ih _ _ _ hrest
      constructor
      · intro hle
        obtain ⟨it', h1, h2⟩ := this.1 (by simpa using hle)
        exact ⟨it', by simp [elementAtLoop, hne, hi, h1], by simpa using h2⟩
      · intro hlt
        simp [elementAtLoop, hne, hi, this.2 (by simpa using hlt)]

theorem Range.ElementAt_run {ops : IterOps H I T} (hp : StoreFree ops) (r : Range T I)
    (index : Nat) {h h' : H} {L : List T} :
    Run ops r.end r.begin h L h' →
    r.ElementAt ops index h =
      match L[index]? with
      | some x => .ok (x, h)
      | none => .error .indexOutOfRange := by
  intro hr
  have hloop := elementAtLoop_run hp index _ _ _ hr
  by_cases hle : index ≤ L.length
  · obtain ⟨it', h1, h2⟩ := hloop.1 hle
    simp only [Range.ElementAt, h1]
    generalize hd : L.drop index = D at h2
    cases h2 with
    | done heq =>
      have : L.length ≤ index := by
        have := congrArg List.length hd
        simp at this
        omega
      simp [heq, List.getElem?_eq_none this]
    | @step _ _ _ _ _ x xs hne hdr _ _ =>
      have hlt : index < L.length := by
        by_contra hge
        rw [List.drop_eq_nil_of_le (by omega)] at hd
        cases hd
      have hx : L[index]? = some x := by
        rw [List.getElem?_eq_getElem hlt]
        rw [List.drop_eq_getElem_cons hlt] at hd
        exact congrArg some (List.cons.inj hd).1
      simp [hne, hdr, hx]
  · have hlt : L.length < index := by omega
    simp [Range.ElementAt, hloop.2 hlt, List.getElem?_eq_none (Nat.le_of_lt hlt)]

theorem Range.ElementAtOrDefault_run {ops : IterOps H I T} (hp : StoreFree ops)
    (r : Range T I) (index : Nat) {h h' : H} {L : List T}
    (hr : Run ops r.end r.begin h L h') :
    r.ElementAtOrDefault ops index h = .ok (L[index]?, h) := by
  have hloop := elementAtLoop_run hp index _ _ _ hr
  by_cases hle : index ≤ L.length
  · obtain ⟨it', h1, h2⟩ := hloop.1 hle
    simp only [Range.ElementAtOrDefault, h1]
    generalize hd : L.drop index = D at h2
    cases h2 with
    | done heq =>
      have : L.length ≤ index := by
        have := congrArg List.length hd
        simp at this
        omega
      simp [heq, List.getElem?_eq_none this]
    | @step _ _ _ _ _ x xs hne hdr _ _ =>
      have hlt : index < L.length := by
        by_contra hge
        rw [List.drop_eq_nil_of_le (by omega)] at hd
        cases hd
      have hx : L[index]? = some x := by
        rw [List.getElem?_eq_getElem hlt]
        rw [List.drop_eq_getElem_cons hlt] at hd
        exact congrArg some (List.cons.inj hd).1
      simp [hne, hdr, hx]
  · have hlt : L.length < index := by omega
    simp [Range.ElementAtOrDefault, hloop.2 hlt, List.getElem?_eq_none (Nat.le_of_lt hlt)]

theorem lastLoop_run {ops : IterOps H I T} (hp : StoreFree ops) {last : I} {h : H} :
    ∀ (xs : List T) (x : T) (it next : I) (h' : H), Run ops last it h (x :: xs) h' →
      ops.incr it h = .ok (next, h) → ∀ fuel, xs.length < fuel →
      ∃ itL y, lastLoop ops last fuel it next h = .ok (itL, h) ∧ ops.deref itL = .ok y ∧
        (x :: xs).getLast? = some y := by
  intro xs
  induction xs with
  | nil =>
    intro x it next h' hr hinc fuel hf
    cases hr with
    | step hne hd hi hrest =>
      rw [hinc] at hi
      cases hi
      cases hrest with
      | done heq =>
        cases fuel with
        | zero => simp at hf
        | succ n => exact ⟨it, x, by simp [lastLoop, heq], hd, rfl⟩
  | cons y ys ih =>
    intro x it next h' hr hinc fuel hf
    cases hr with
    | step hne hd hi hrest =>
      rw [hinc] at hi
      cases hi
      cases hrest with
      | @step _ next' _ h2 _ _ _ hne2 hd2 hi2 hrest2 =>
        have hs := hp _ _ _ _ hi2
        subst hs
        cases fuel with
        | zero => simp at hf
        | succ n =>
          obtain ⟨itL, z, h1, h2, h3⟩ := ih y next next' h' (Run.step hne2 hd2 hi2 hrest2) hi2 n
            (by simpa using hf)
          refine ⟨itL, z, ?_, h2, ?_⟩
          · simp [lastLoop, hne2, hinc, hi2, h1]
          · simpa [List.getLast?_cons_cons] using h3

theorem Range.Last_run {ops : IterOps H I T} (hl : Lawful ops) (hp : StoreFree ops)
    (r : Range T I) {h h' : H} {L : List T} :
    Run ops r.end r.begin h L h' →
    r.Last ops h =
      match L.getLast? with
      | none => .error .emptySequence
      | some x => .ok (x, h) := by
  intro hr
  cases hr with
  | done heq => simp [Range.Last, heq]
  | @step _ next _ h1 _ x xs hne hd hi hrest =>
    have hs := hp _ _ _ _ hi
    subst hs
    obtain ⟨itL, y, e1, e2, e3⟩ := lastLoop_run hp xs x _ next h' (Run.step hne hd hi hrest) hi
      (ops.rem next + 1) (Nat.lt_succ_of_le (hrest.length_le_rem hl))
    simp [Range.Last, hne, hi, e1, e2, e3]

theorem Range.LastOrDefault_run {ops : IterOps H I T} (hl : Lawful ops) (hp : StoreFree ops)
    (r : Range T I) {h h' : H} {L : List T} (hr : Run ops r.end r.begin h L h') :
    r.LastOrDefault ops h = .ok (L.getLast?, h) := by
  cases hr with
  | done heq => simp [Range.LastOrDefault, heq]
  | @step _ next _ h1 _ x xs hne hd hi hrest =>
    have hs := hp _ _ _ _ hi
    subst hs
    obtain ⟨itL, y, e1, e2, e3⟩ := lastLoop_run hp xs x _ next h' (Run.step hne hd hi hrest) hi
      (ops.rem next + 1) (Nat.lt_succ_of_le (hrest.length_le_rem hl))
    simp [Range.LastOrDefault, hne, hi, e1, e2, e3]

theorem Range.ToCArray_run [Inhabited T] {ops : IterOps H I T} (hl : Lawful ops)
    (hp : StoreFree ops) (r : Range T I) {h h' : H} {L : List T}
    (hr : Run ops r.end r.begin h L h') :
    r.ToCArray ops h = .ok (if L.length = 0 then (none, 0) else (some L, L.length), h) := by
  have hs := hr.store_eq hp
  subst hs
  by_cases hL : L.length = 0
  · simp [Range.ToCArray, distance_run hl hr, hL]
  · simp [Range.ToCArray, distance_run hl hr, forEach_run hl hr, foldl_push, hL]

theorem ptr_advance (S : List T) (h : H) : ∀ (n i : Nat), i + n ≤ S.length →
    advance (Ptr.ops : IterOps H (Ptr T) T) n ⟨S, i⟩ h = .ok (⟨S, i + n⟩, h) := by
  intro n
  induction n with
  | zero => intro i _; simp [advance]
  | succ n ih =>
    intro i hi
    have hlt : i < S.length := by omega
    have := ih (i + 1) (by omega)
    simp only [advance, Ptr.ops, hlt, if_true] at this ⊢
    rw [this]
    simp [Nat.add_assoc, Nat.add_comm 1 n]

theorem From_take (S : List T) (n : Nat) (h : H) :
    (From S).Take Ptr.ops n h =
      .ok (Range.ofIterators ⟨S, 0⟩ ⟨S, min n S.length⟩, h) := by
  have hd := distance_run ptr_lawful (From_run S h)
  have ha := ptr_advance S h (min n S.length) 0 (by simp)
  simp only [Nat.zero_add] at ha
  simp only [Range.begin, Range.end, From, Range.ofIterators] at hd
  simp [Range.Take, From, Range.ofIterators, Range.begin, Range.end, hd, ha]

theorem From_skip (S : List T) (n : Nat) (h : H) :
    (From S).Skip Ptr.ops n h =
      .ok (Range.ofIterators ⟨S, min n S.length⟩ ⟨S, S.length⟩, h) := by
  have hd := distance_run ptr_lawful (From_run S h)
  have ha := ptr_advance S h (min n S.length) 0 (by simp)
  simp only [Nat.zero_add] at ha
  simp only [Range.begin, Range.end, From, Range.ofIterators] at hd
  simp [Range.Skip, From, Range.ofIterators, Range.begin, Range.end, hd, ha]

theorem ptr_range_toVector (S : List T) (i n : Nat) (hi : i ≤ n) (hn : n ≤ S.length) (h : H) :
    (Range.ofIterators ⟨S, i⟩ ⟨S, n⟩ : Range T (Ptr T)).ToVector Ptr.ops h =
      .ok ((S.take n).drop i, h) :=
  Range.ToVector_run ptr_lawful ptr_storeFree _ (ptr_run S n hn h (n - i) i rfl hi)

theorem fault_empty_ne_multiple : Fault.emptySequence ≠ Fault.multipleElements := by
  simp [Fault.emptySequence, Fault.multipleElements]

theorem From_single₁ (S : List T) (p : T → Bool) (h : H) :
    (From S).Single₁ Ptr.ops p h = (From (S.filter p)).Single Ptr.ops h := by
  obtain ⟨q, hq, hrun⟩ := From_where_run S p h
  rw [Range.Single_run ptr_storeFree _ (From_run (S.filter p) h)]
  simp [Range.Single₁, Exec.bind, hq,
    Range.Single_run (where_storeFree ptr_storeFree) q hrun]

theorem From_singleOrDefault₁ (S : List T) (p : T → Bool) (h : H) :
    (From S).SingleOrDefault₁ Ptr.ops p h = (From (S.filter p)).SingleOrDefault Ptr.ops h := by
  obtain ⟨q, hq, hrun⟩ := From_where_run S p h
  rw [Range.SingleOrDefault_run ptr_storeFree _ (From_run (S.filter p) h)]
  simp [Range.SingleOrDefault₁, Exec.bind, hq,
    Range.SingleOrDefault_run (where_storeFree ptr_storeFree) q hrun]

/-- C11. For every sequence `S`: `Single()` throws EmptySequence exactly when `S` has no
element, throws MultipleElements exactly when `S` has more than one, and returns a value
exactly when `S` has one element, which is that value; `SingleOrDefault()` returns the
empty optional on no element, the sole element on one, and throws MultipleElements on
more; `Single(p)` and `SingleOrDefault(p)` do on `S` what `Single()` and
`SingleOrDefault()` do on the elements of `S` satisfying `p`. -/
theorem single_by_cardinality (S : List T) (p : T → Bool) (h : H) :
    ((From S).Single Ptr.ops h =
        match S with
        | [] => .error .emptySequence
        | [x] => .ok (x, h)
        | _ :: _ :: _ => .error .multipleElements) ∧
      ((From S).Single Ptr.ops h = .error .emptySequence ↔ S.length = 0) ∧
      ((From S).Single Ptr.ops h = .error .multipleElements ↔ 1 < S.length) ∧
      ((∃ x, (From S).Single Ptr.ops h = .ok (x, h)) ↔ S.length = 1) ∧
      ((From S).SingleOrDefault Ptr.ops h =
        match S with
        | [] => .ok (none, h)
        | [x] => .ok (some x, h)
        | _ :: _ :: _ => .error .multipleElements) ∧
      (From S).Single₁ Ptr.ops p h = (From (S.filter p)).Single Ptr.ops h ∧
      (From S).SingleOrDefault₁ Ptr.ops p h =
        (From (S.filter p)).SingleOrDefault Ptr.ops h := by
  have hS := Range.Single_run ptr_storeFree (From S) (From_run S h)
  have hne := fault_empty_ne_multiple
  refine ⟨hS, ?_, ?_, ?_, Range.SingleOrDefault_run ptr_storeFree (From S) (From_run S h),
    From_single₁ S p h, From_singleOrDefault₁ S p h⟩
  · rw [hS]
    match S with
    | [] => simp
    | [x] => simp
    | _ :: _ :: _ => simp [hne.symm]
  · rw [hS]
    match S with
    | [] => simp [hne]
    | [x] => simp
    | _ :: _ :: _ => simp
  · rw [hS]
    match S with
    | [] => simp
    | [x] => simp
    | _ :: _ :: _ => simp

theorem head?_filter_eq_find? (p : T → Bool) : ∀ S : List T, (S.filter p).head? = S.find? p
  | [] => rfl
  | x :: xs => by
    by_cases hx : p x = true
    · simp [List.filter_cons_of_pos hx, List.find?_cons_of_pos _ hx]
    · simp [List.filter_cons_of_neg hx, List.find?_cons_of_neg _ hx, head?_filter_eq_find? p xs]

/-- C12. For every sequence `S` and predicate `p`: `First()` throws EmptySequence
exactly when `S` is empty and otherwise returns `S[0]`; `First(p)` throws EmptySequence
exactly when no element satisfies `p` and otherwise returns the earliest element that
does; `FirstOrDefault()` and `FirstOrDefault(p)` do not fail and return the empty
optional where `First()` and `First(p)` throw, and the same element otherwise. -/
theorem first_or_empty (S : List T) (p : T → Bool) (h : H) :
    ((From S).First Ptr.ops h =
        match S with
        | [] => .error .emptySequence
        | x :: _ => .ok (x, h)) ∧
      ((From S).First Ptr.ops h = .error .emptySequence ↔ S = []) ∧
      ((From S).First₁ Ptr.ops p h =
        match S.find? p with
        | none => .error .emptySequence
        | some x => .ok (x, h)) ∧
      ((From S).First₁ Ptr.ops p h = .error .emptySequence ↔ ∀ x ∈ S, p x = false) ∧
      (From S).FirstOrDefault Ptr.ops h = .ok (S.head?, h) ∧
      (From S).FirstOrDefault₁ Ptr.ops p h = .ok (S.find? p, h) := by
  have hF := Range.First_run (From S) (From_run S h)
  obtain ⟨q, hq, hrun⟩ := From_where_run S p h
  have hF1 : (From S).First₁ Ptr.ops p h =
      match S.find? p with
      | none => .error .emptySequence
      | some x => .ok (x, h) := by
    simp only [Range.First₁, Exec.bind, hq, Range.First_run q hrun]
    rw [← head?_filter_eq_find? p S]
    cases S.filter p <;> rfl
  refine ⟨hF, ?_, hF1, ?_, Range.FirstOrDefault_run (From S) (From_run S h), ?_⟩
  · rw [hF]
    cases S <;> simp
  · rw [hF1]
    cases hfind : S.find? p with
    | none => simpa using List.find?_eq_none.mp hfind
    | some x =>
      have hx := List.find?_some hfind
      have hm := List.mem_of_find?_eq_some hfind
      simp only [false_iff, reduceCtorEq]
      intro hall
      rw [hall x hm] at hx
      cases hx
  · simp [Range.FirstOrDefault₁, Exec.bind, hq, Range.FirstOrDefault_run q hrun,
      head?_filter_eq_find?]

/-- C13. For every sequence `S` and index `i`: `ElementAt(i)` returns `S[i]` when
`i < |S|` and throws OutOfRange exactly when `i ≥ |S|`; `ElementAtOrDefault(i)` does not
fail, returns `S[i]` when `i < |S|` and the empty optional exactly when `i ≥ |S|`. -/
theorem elementAt_by_index (S : List T) (i : Nat) (h : H) :
    ((From S).ElementAt Ptr.ops i h =
        match S[i]? with
        | some x => .ok (x, h)
        | none => .error .indexOutOfRange) ∧
      ((From S).ElementAt Ptr.ops i h = .error .indexOutOfRange ↔ S.length ≤ i) ∧
      (From S).ElementAtOrDefault Ptr.ops i h = .ok (S[i]?, h) ∧
      (S[i]? = none ↔ S.length ≤ i) := by
  have hE := Range.ElementAt_run ptr_storeFree (From S) i (From_run S h)
  refine ⟨hE, ?_, Range.ElementAtOrDefault_run ptr_storeFree (From S) i (From_run S h),
    List.getElem?_eq_none_iff⟩
  rw [hE]
  by_cases hi : i < S.length
  · simp [List.getElem?_eq_getElem hi]
    omega
  · simp [List.getElem?_eq_none (Nat.le_of_not_lt hi)]
    omega

/-- C16. For every sequence `S` and predicate `p`: `Last()` throws EmptySequence
exactly when `S` is empty and otherwise returns the final element `S[|S|-1]`;
`LastOrDefault()` returns the empty optional exactly when `S` is empty and otherwise the
final element; `Last(p)` and `LastOrDefault(p)` return the latest element of `S`
satisfying `p`, and throw, respectively return the empty optional, exactly when no
element satisfies `p`. -/
theorem last_or_empty (S : List T) (p : T → Bool) (h : H) :
    ((From S).Last Ptr.ops h =
        match S.getLast? with
        | none => .error .emptySequence
        | some x => .ok (x, h)) ∧
      ((From S).Last Ptr.ops h = .error .emptySequence ↔ S = []) ∧
      (From S).LastOrDefault Ptr.ops h = .ok (S.getLast?, h) ∧
      S.getLast? = S[S.length - 1]? ∧
      ((From S).Last₁ Ptr.ops p h =
        match (S.filter p).getLast? with
        | none => .error .emptySequence
        | some x => .ok (x, h)) ∧
      (From S).LastOrDefault₁ Ptr.ops p h = .ok ((S.filter p).getLast?, h) ∧
      ((S.filter p).getLast? = none ↔ ∀ x ∈ S, p x = false) := by
  have hL := Range.Last_run ptr_lawful ptr_storeFree (From S) (From_run S h)
  obtain ⟨q, hq, hrun⟩ := From_where_run S p h
  refine ⟨hL, ?_, Range.LastOrDefault_run ptr_lawful ptr_storeFree (From S) (From_run S h),
    List.getLast?_eq_getElem? S, ?_, ?_, ?_⟩
  · rw [hL]
    cases hS : S.getLast? with
    | none => simpa using List.getLast?_eq_none_iff.mp hS
    | some x =>
      simp only [false_iff, reduceCtorEq]
      intro hnil
      rw [hnil] at hS
      cases hS
  · simp [Range.Last₁, Exec.bind, hq,
      Range.Last_run (where_lawful ptr_lawful) (where_storeFree ptr_storeFree) q hrun]
  · simp [Range.LastOrDefault₁, Exec.bind, hq,
      Range.LastOrDefault_run (where_lawful ptr_lawful) (where_storeFree ptr_storeFree) q hrun]
  · rw [List.getLast?_eq_none_iff, List.filter_eq_nil_iff]
    simp

/-- C17. For every sequence `S` and count `n`, also beyond the length of `S`:
`From(S).Take(n).ToVector()` is the first `min(n, |S|)` elements of `S`,
`From(S).Skip(n).ToVector()` is `S` without them, neither fails, and the two results
concatenate back to `S`. -/
theorem take_skip_split (S : List T) (n : Nat) (h : H) :
    ((From S).Take Ptr.ops n).bind (fun q => q.ToVector Ptr.ops) h
        = .ok (S.take (min n S.length), h) ∧
      ((From S).Skip Ptr.ops n).bind (fun q => q.ToVector Ptr.ops) h
        = .ok (S.drop (min n S.length), h) ∧
      S.take (min n S.length) ++ S.drop (min n S.length) = S := by
  refine ⟨?_, ?_, List.take_append_drop _ S⟩
  · have := ptr_range_toVector S 0 (min n S.length) (Nat.zero_le _) (Nat.min_le_right _ _) h
    simp only [List.drop_zero] at this
    simp only [Exec.bind, From_take, this]
  · have := ptr_range_toVector S (min n S.length) S.length (Nat.min_le_right _ _)
      (Nat.le_refl _) h
    simp only [List.take_length] at this
    simp only [Exec.bind, From_skip, this]

/-- C18. For every sequence `S` and predicate `p`, `From(S).Where(p).ToCArray()` returns
the null pointer with count 0 when `Where(p).Count()` is 0, which is so exactly when no
element of `S` satisfies `p`; otherwise it returns an array holding the elements of
`Where(p).ToVector()` in order, with the count `Where(p).Count()`. -/
theorem where_toCArray [Inhabited T] (S : List T) (p : T → Bool) (h : H) :
    ∃ q v c, (From S).Where Ptr.ops p h = .ok (q, h) ∧
      q.ToVector (WhereIterator.ops Ptr.ops) h = .ok (v, h) ∧
      q.Count (WhereIterator.ops Ptr.ops) h = .ok (c, h) ∧
      q.ToCArray (WhereIterator.ops Ptr.ops) h =
        .ok (if c = 0 then (none, 0) else (some v, c), h) ∧
      (c = 0 ↔ ∀ x ∈ S, p x = false) := by
  obtain ⟨q, hq, hrun⟩ := From_where_run S p h
  refine ⟨q, S.filter p, (S.filter p).length, hq,
    Range.ToVector_run (where_lawful ptr_lawful) (where_storeFree ptr_storeFree) q hrun,
    Range.Count_run (where_lawful ptr_lawful) q hrun,
    Range.ToCArray_run (where_lawful ptr_lawful) (where_storeFree ptr_storeFree) q hrun, ?_⟩
  rw [List.length_eq_zero, List.filter_eq_nil_iff]
  simp

end

section
variable {H I T : Type} [LinearOrder T]

theorem minElementLoop_run {ops : IterOps H I T} {last first : I} {h h' : H} {L : List T}
    (hr : Run ops last first h L h') :
    ∀ (sm : I) (m : T), ops.deref sm = .ok m → ∀ fuel, L.length < fuel →
      ∃ sm', minElementLoop ops last fuel first sm h = .ok (sm', h') ∧
        ops.deref sm' = .ok (L.foldl (fun m x => if x < m then x else m) m) := by
  induction hr with
  | @done it h heq =>
    intro sm m hsm fuel hf
    cases fuel with
    | zero => simp at hf
    | succ n => exact ⟨sm, by simp [minElementLoop, heq], hsm⟩
  | @step it it' h h1 h2 x xs hne hd hi hrest ih =>
    intro sm m hsm fuel hf
    cases fuel with
    | zero => simp at hf
    | succ n =>
      by_cases hlt : x < m
      · obtain ⟨sm', e1, e2⟩ := ih it x hd n (by simpa using hf)
        exact ⟨sm', by simp [minElementLoop, hne, hd, hsm, hi, hlt, e1], by simpa [hlt] using e2⟩
      · obtain ⟨sm', e1, e2⟩ := ih sm m hsm n (by simpa using hf)
        exact ⟨sm', by simp [minElementLoop, hne, hd, hsm, hi, hlt, e1], by simpa [hlt] using e2⟩

theorem maxElementLoop_run {ops : IterOps H I T} {last first : I} {h h' : H} {L : List T}
    (hr : Run ops last first h L h') :
    ∀ (lg : I) (m : T), ops.deref lg = .ok m → ∀ fuel, L.length < fuel →
      ∃ lg', maxElementLoop ops last fuel first lg h = .ok (lg', h') ∧
        ops.deref lg' = .ok (L.foldl (fun m x => if m < x then x else m) m) := by
  induction hr with
  | @done it h heq =>
    intro lg m hlg fuel hf
    cases fuel with
    | zero => simp at hf
    | succ n => exact ⟨lg, by simp [maxElementLoop, heq], hlg⟩
  | @step it it' h h1 h2 x xs hne hd hi hrest ih =>
    intro lg m hlg fuel hf
    cases fuel with
    | zero => simp at hf
    | succ n =>
      by_cases hlt : m < x
      · obtain ⟨lg', e1, e2⟩ := ih it x hd n (by simpa using hf)
        exact ⟨lg', by simp [maxElementLoop, hne, hd, hlg, hi, hlt, e1], by simpa [hlt] using e2⟩
      · obtain ⟨lg', e1, e2⟩ := ih lg m hlg n (by simpa using hf)
        exact ⟨lg', by simp [maxElementLoop, hne, hd, hlg, hi, hlt, e1], by simpa [hlt] using e2⟩

theorem foldl_min_spec : ∀ (L : List T) (m : T),
    (L.foldl (fun m x => if x < m then x else m) m ∈ m :: L) ∧
      ∀ y ∈ m :: L, L.foldl (fun m x => if x < m then x else m) m ≤ y
  | [], m => by simp
  | x :: xs, m => by
    have ih := foldl_min_spec xs (if x < m then x else m)
    simp only [List.foldl_cons]
    constructor
    · rcases List.mem_cons.mp ih.1 with h1 | h1
      · rw [h1]
        split
        · simp
        · simp
      · exact List.mem_cons_of_mem _ (List.mem_cons_of_mem _ h1)
    · intro y hy
      have hm : xs.foldl (fun m x => if x < m then x else m) (if x < m then x else m) ≤
          (if x < m then x else m) := ih.2 _ (List.mem_cons_self _ _)
      rcases List.mem_cons.mp hy with h1 | h1
      · rw [h1]
        refine le_trans hm ?_
        split
        · rename_i hlt; exact le_of_lt hlt
        · exact le_refl _
      · rcases List.mem_cons.mp h1 with h2 | h2
        · rw [h2]
          refine le_trans hm ?_
          split
          · exact le_refl _
          · rename_i hlt; exact not_lt.mp hlt
        · exact ih.2 y (List.mem_cons_of_mem _ h2)

theorem foldl_max_spec : ∀ (L : List T) (m : T),
    (L.foldl (fun m x => if m < x then x else m) m ∈ m :: L) ∧
      ∀ y ∈ m :: L, y ≤ L.foldl (fun m x => if m < x then x else m) m
  | [], m => by simp
  | x :: xs, m => by
    have ih := foldl_max_spec xs (if m < x then x else m)
    simp only [List.foldl_cons]
    constructor
    · rcases List.mem_cons.mp ih.1 with h1 | h1
      · rw [h1]
        split
        · simp
        · simp
      · exact List.mem_cons_of_mem _ (List.mem_cons_of_mem _ h1)
    · intro y hy
      have hm : (if m < x then x else m) ≤
          xs.foldl (fun m x => if m < x then x else m) (if m < x then x else m) :=
        ih.2 _ (List.mem_cons_self _ _)
      rcases List.mem_cons.mp hy with h1 | h1
      · rw [h1]
        refine le_trans ?_ hm
        split
        · rename_i hlt; exact le_of_lt hlt
        · exact le_refl _
      · rcases List.mem_cons.mp h1 with h2 | h2
        · rw [h2]
          refine le_trans ?_ hm
          split
          · exact le_refl _
          · rename_i hlt; exact not_lt.mp hlt
        · exact ih.2 y (List.mem_cons_of_mem _ h2)

theorem Range.Min_run {ops : IterOps H I T} (hl : Lawful ops) (r : Range T I) {h h' : H}
    {L : List T} :
    Run ops r.end r.begin h L h' →
    r.Min ops h =
      match L with
      | [] => .error .emptySequence
      | x :: xs => .ok (xs.foldl (fun m y => if y < m then y else m) x, h') := by
  intro hr
  cases hr with
  | done heq => simp [Range.Min, heq]
  | @step _ it' _ h1 _ x xs hne hd hi hrest =>
    obtain ⟨sm', e1, e2⟩ := minElementLoop_run hrest r.begin x hd (ops.rem it' + 1)
      (Nat.lt_succ_of_le (hrest.length_le_rem hl))
    simp [Range.Min, minElement, hne, hi, e1, e2]

theorem Range.Max_run {ops : IterOps H I T} (hl : Lawful ops) (r : Range T I) {h h' : H}
    {L : List T} :
    Run ops r.end r.begin h L h' →
    r.Max ops h =
      match L with
      | [] => .error .emptySequence
      | x :: xs => .ok (xs.foldl (fun m y => if m < y then y else m) x, h') := by
  intro hr
  cases hr with
  | done heq => simp [Range.Max, heq]
  | @step _ it' _ h1 _ x xs hne hd hi hrest =>
    obtain ⟨lg', e1, e2⟩ := maxElementLoop_run hrest r.begin x hd (ops.rem it' + 1)
      (Nat.lt_succ_of_le (hrest.length_le_rem hl))
    simp [Range.Max, maxElement, hne, hi, e1, e2]

/-- C14. For every sequence `S` over a linearly ordered type: `Min()` and `Max()` throw
EmptySequence exactly when `S` is empty; otherwise `Min()` returns an element of `S`
below or equal to every element of `S`, and `Max()` one above or equal to every
element. -/
theorem min_max_extremal (S : List T) (h : H) :
    ((From S).Min Ptr.ops h = .error .emptySequence ↔ S = []) ∧
      ((From S).Max Ptr.ops h = .error .emptySequence ↔ S = []) ∧
      ((S = [] ∧ (From S).Min Ptr.ops h = .error .emptySequence ∧
          (From S).Max Ptr.ops h = .error .emptySequence) ∨
        ∃ lo hi, (From S).Min Ptr.ops h = .ok (lo, h) ∧ (From S).Max Ptr.ops h = .ok (hi, h) ∧
          lo ∈ S ∧ hi ∈ S ∧ ∀ x ∈ S, lo ≤ x ∧ x ≤ hi) := by
  have hmin := Range.Min_run ptr_lawful (From S) (From_run S h)
  have hmax := Range.Max_run ptr_lawful (From S) (From_run S h)
  match S, hmin, hmax with
  | [], hmin, hmax => simp [hmin, hmax]
  | x :: xs, hmin, hmax =>
    simp only at hmin hmax
    refine ⟨by simp [hmin], by simp [hmax], Or.inr ⟨_, _, hmin, hmax, ?_, ?_, ?_⟩⟩
    · exact (foldl_min_spec xs x).1
    · exact (foldl_max_spec xs x).1
    · intro y hy
      exact ⟨(foldl_min_spec xs x).2 y hy, (foldl_max_spec xs x).2 y hy⟩

end

theorem foldl_groups {T K : Type} (m : StdMap K (List T)) : ∀ init : List (Grouping K T),
    m.foldl (fun groups pair => groups ++ [Grouping.new pair.1 pair.2]) init =
      init ++ m.map (fun pair => Grouping.new pair.1 pair.2) := by
  induction m with
  | nil => intro init; simp
  | cons e es ih => intro init; simp [ih]

section
variable {H I T K V : Type} [LinearOrder K]

theorem find_modify (k : K) (f : V → V) (k' : K) : ∀ m : StdMap K V,
    StdMap.find (StdMap.modify m k f) k' =
      if k' = k then (StdMap.find m k').map f else StdMap.find m k'
  | [] => by simp [StdMap.modify, StdMap.find]
  | (k0, v0) :: rest => by
    have ih := find_modify k f k' rest
    simp only [StdMap.modify, StdMap.find] at ih ⊢
    by_cases h0 : k0 = k'
    · subst h0
      by_cases hk : k0 = k
      · subst hk
        simp
      · simp [hk]
    · by_cases hk : k0 = k
      · simp only [List.map_cons, hk, if_true]
        rw [List.find?_cons_of_neg _ (by simpa [hk] using h0),
          List.find?_cons_of_neg _ (by simpa [hk] using h0)]
        simpa [hk] using ih
      · simp only [List.map_cons, hk, if_false]
        rw [List.find?_cons_of_neg _ (by simpa using h0),
          List.find?_cons_of_neg _ (by simpa using h0)]
        exact ih

theorem modify_keys (k : K) (f : V → V) (m : StdMap K V) :
    (StdMap.modify m k f).map Prod.fst = m.map Prod.fst := by
  simp only [StdMap.modify, List.map_map]
  apply List.map_congr_left
  intro e _
  by_cases he : e.1 = k <;> simp [he]

theorem sorted_iff_keys (m : StdMap K V) :
    m.Pairwise (fun a b => a.1 < b.1) ↔ (m.map Prod.fst).Pairwise (· < ·) := by
  rw [List.pairwise_map]

theorem modify_sorted (k : K) (f : V → V) (m : StdMap K V)
    (hm : m.Pairwise (fun a b => a.1 < b.1)) :
    (StdMap.modify m k f).Pairwise (fun a b => a.1 < b.1) := by
  rw [sorted_iff_keys, modify_keys, ← sorted_iff_keys]
  exact hm

theorem groupByStep_sorted (ks : T → K) (m : StdMap K (List T)) (x : T)
    (hm : m.Pairwise (fun a b => a.1 < b.1)) :
    (groupByStep ks m x).Pairwise (fun a b => a.1 < b.1) := by
  simp only [groupByStep]
  apply modify_sorted
  split
  · exact emplace_sorted _ _ m hm
  · exact hm

theorem find_groupByStep (ks : T → K) (m : StdMap K (List T)) (x : T) (k : K)
    (hm : m.Pairwise (fun a b => a.1 < b.1)) :
    StdMap.find (groupByStep ks m x) k =
      if k = ks x then some ((StdMap.find m (ks x)).getD [] ++ [x]) else StdMap.find m k := by
  simp only [groupByStep, find_modify]
  by_cases hk : k = ks x
  · subst hk
    cases hf : StdMap.find m (ks x) with
    | none => simp [hf, find_emplace _ _ _ m hm]
    | some v => simp [hf]
  · cases hf : StdMap.find m (ks x) with
    | none => simp [hk, find_emplace _ _ _ m hm]
    | some v => simp [hk]

theorem foldl_groupByStep (ks : T → K) : ∀ (L : List T) (m : StdMap K (List T)),
    m.Pairwise (fun a b => a.1 < b.1) →
    (L.foldl (groupByStep ks) m).Pairwise (fun a b => a.1 < b.1) ∧
      ∀ k, StdMap.find (L.foldl (groupByStep ks) m) k =
        match StdMap.find m k, L.filter (fun e => decide (ks e = k)) with
        | none, [] => none
        | o, l => some (o.getD [] ++ l)
  | [], m, hm => by
    refine ⟨hm, ?_⟩
    intro k
    simp only [List.foldl_nil, List.filter_nil]
    generalize StdMap.find m k = o
    cases o <;> simp
  | x :: xs, m, hm => by
    have ih := foldl_groupByStep ks xs (groupByStep ks m x) (groupByStep_sorted ks m x hm)
    refine ⟨ih.1, ?_⟩
    intro k
    rw [List.foldl_cons, ih.2 k, find_groupByStep ks m x k hm]
    by_cases hk : k = ks x
    · subst hk
      simp only [if_true, decide_True, List.filter_cons_of_pos]
      generalize StdMap.find m (ks x) = o
      cases o <;> simp
    · rw [List.filter_cons_of_neg (by simpa using Ne.symm hk)]
      simp only [hk, if_false]

theorem find_of_mem_sorted : ∀ (m : StdMap K V), m.Pairwise (fun a b => a.1 < b.1) →
    ∀ k v, (k, v) ∈ m → StdMap.find m k = some v
  | [], _, _, _, hmem => by simp at hmem
  | (k0, v0) :: rest, hm, k, v, hmem => by
    have hm' := List.pairwise_cons.mp hm
    rcases List.mem_cons.mp hmem with h1 | h1
    · cases h1
      simp [StdMap.find]
    · have hlt : k0 < k := hm'.1 (k, v) h1
      have ih := find_of_mem_sorted rest hm'.2 k v h1
      simp only [StdMap.find] at ih ⊢
      rw [List.find?_cons_of_neg _ (by simpa using ne_of_lt hlt)]
      exact ih

theorem mem_keys_iff_find (m : StdMap K V) (k : K) :
    k ∈ m.map Prod.fst ↔ (StdMap.find m k).isSome = true := by
  simp [StdMap.find, List.find?_isSome]

theorem sum_filter_lengths (ks : T → K) : ∀ (S : List T) (keys : List K), keys.Nodup →
    (∀ e ∈ S, ks e ∈ keys) →
    (keys.map (fun k => (S.filter (fun e => decide (ks e = k))).length)).sum = S.length
  | [], keys, _, _ => by simp
  | x :: xs, keys, hnd, hall => by
    have ih := sum_filter_lengths ks xs keys hnd
      (fun e he => hall e (List.mem_cons_of_mem _ he))
    have hx : ks x ∈ keys := hall x (List.mem_cons_self _ _)
    have hsplit : ∀ k, ((x :: xs).filter (fun e => decide (ks e = k))).length =
        (xs.filter (fun e => decide (ks e = k))).length + (if ks x = k then 1 else 0) := by
      intro k
      by_cases hk : ks x = k <;> simp [List.filter_cons, hk]
    have hcount : ∀ l : List K, (l.map (fun k => if ks x = k then 1 else 0)).sum =
        l.count (ks x) := by
      intro l
      induction l with
      | nil => simp
      | cons a l ihl =>
        by_cases ha : ks x = a
        · subst ha
          simp [ihl, Nat.add_comm]
        · have ha' : ¬ a = ks x := fun e => ha e.symm
          simp [ha, ihl, List.count_cons, ha']
    simp only [hsplit, List.sum_map_add, ih, hcount, List.count_eq_one_of_mem hnd hx,
      List.length_cons]

/-- C15. For every sequence `S` and key selector `ks` into a linearly ordered type,
`GroupBy(ks)` returns groupings whose keys are strictly ascending (so pairwise
distinct) and are exactly the key values occurring in `S`; the members of the grouping
with key `k` are the elements `e` of `S` with `ks(e) = k` in their order in `S`; no
grouping is empty and the sizes of the groupings sum to the length of `S`. -/
theorem groupBy_groups (S : List T) (ks : T → K) (h : H) :
    ∃ gs, ((From S).GroupBy Ptr.ops ks).bind (fun q => q.ToVector Ptr.ops) h = .ok (gs, h) ∧
      (gs.map Grouping.Key).Pairwise (· < ·) ∧
      (∀ k, k ∈ gs.map Grouping.Key ↔ ∃ e ∈ S, ks e = k) ∧
      (∀ g ∈ gs, g.toRange.ToVector Ptr.ops h =
          .ok (S.filter (fun e => decide (ks e = g.Key)), h) ∧
        S.filter (fun e => decide (ks e = g.Key)) ≠ []) ∧
      (gs.map (fun g => (S.filter (fun e => decide (ks e = g.Key))).length)).sum = S.length := by
  have hf := foldl_groupByStep ks S [] List.Pairwise.nil
  generalize hm : S.foldl (groupByStep ks) [] = m at hf
  have hfind : ∀ k, StdMap.find m k =
      match S.filter (fun e => decide (ks e = k)) with
      | [] => none
      | l => some l := by
    intro k
    rw [hf.2 k]
    simp only [StdMap.find, List.find?_nil, Option.map_none']
    cases S.filter (fun e => decide (ks e = k)) <;> simp
  have hkeys : (m.map (fun pair => Grouping.new pair.1 pair.2)).map Grouping.Key =
      m.map Prod.fst := by
    simp [List.map_map, Function.comp_def, Grouping.Key, Grouping.new]
  have hmemkeys : ∀ k, k ∈ m.map Prod.fst ↔ ∃ e ∈ S, ks e = k := by
    intro k
    rw [mem_keys_iff_find, hfind k]
    cases hfl : S.filter (fun e => decide (ks e = k)) with
    | nil =>
      simp only [Option.isSome_none, Bool.false_eq_true, false_iff, not_exists, not_and]
      intro e he hke
      have : e ∈ S.filter (fun e => decide (ks e = k)) :=
        List.mem_filter.mpr ⟨he, by simpa using hke⟩
      rw [hfl] at this
      cases this
    | cons y ys =>
      simp only [Option.isSome_some, true_iff]
      have : y ∈ S.filter (fun e => decide (ks e = k)) := by rw [hfl]; exact List.mem_cons_self _ _
      have := List.mem_filter.mp this
      exact ⟨y, this.1, by simpa using this.2⟩
  refine ⟨m.map (fun pair => Grouping.new pair.1 pair.2), ?_, ?_, ?_, ?_, ?_⟩
  · simp [Exec.bind, Range.GroupBy, forEach_run ptr_lawful (From_run S h), hm, foldl_groups,
      ofData_toVector]
  · rw [hkeys, ← sorted_iff_keys]
    exact hf.1
  · intro k
    rw [hkeys]
    exact hmemkeys k
  · intro g hg
    obtain ⟨⟨k, v⟩, hmem, rfl⟩ := List.mem_map.mp hg
    have hv := find_of_mem_sorted m hf.1 k v hmem
    rw [hfind k] at hv
    simp only [Grouping.Key, Grouping.new]
    cases hfl : S.filter (fun e => decide (ks e = k)) with
    | nil => rw [hfl] at hv; cases hv
    | cons y ys =>
      rw [hfl] at hv
      simp only [Option.some.injEq] at hv
      refine ⟨?_, by simp⟩
      rw [← hv]
      exact ofData_toVector _ h
  · have hnd : (m.map Prod.fst).Nodup := by
      have := (sorted_iff_keys m).mp hf.1
      exact this.imp (fun hab => ne_of_lt hab)
    have := sum_filter_lengths ks S (m.map Prod.fst) hnd
      (fun e he => (hmemkeys (ks e)).mpr ⟨e, he, rfl⟩)
    simpa [List.map_map, Function.comp_def, Grouping.Key, Grouping.new] using this

end

section
variable {H I T : Type} [DecidableEq T]

theorem firstOccurrences_spec (L : List T) :
    (firstOccurrences L).Nodup ∧ (∀ x, x ∈ firstOccurrences L ↔ x ∈ L) ∧
      ∀ x ∈ L, ∀ y ∈ L, ((firstOccurrences L).indexOf x < (firstOccurrences L).indexOf y ↔
        L.indexOf x < L.indexOf y) := by
  refine ⟨distinctFrom_nodup L [], ?_, ?_⟩
  · intro x
    simp [firstOccurrences, distinctFrom_mem]
  · intro x hx y hy
    exact distinctFrom_indexOf L [] x y (by simp) (by simp) hx hy

/-- C19. For all sequences `A` and `B`: `A.Union(B).ToVector()` is `A ++ B` reduced to
the first occurrence of each value; `A.Intersect(B).ToVector()` is the same reduction of
the elements of `A` that occur in `B`; `A.Except(B).ToVector()` that of the elements of
`A` that do not occur in `B`.  The reduction `firstOccurrences L` has no repetition,
holds the values of `L`, and orders them as their first occurrences in `L` are. -/
theorem set_operators_first_seen_order (A B : List T) (h : H) :
    ((From A).Union Ptr.ops Ptr.ops (From B)).bind (fun r => r.ToVector Ptr.ops) h
        = .ok (firstOccurrences (A ++ B), h) ∧
      ((From A).Intersect Ptr.ops Ptr.ops (From B)).bind (fun r => r.ToVector Ptr.ops) h
        = .ok (firstOccurrences (A.filter (fun x => decide (x ∈ B))), h) ∧
      ((From A).Except Ptr.ops Ptr.ops (From B)).bind (fun r => r.ToVector Ptr.ops) h
        = .ok (firstOccurrences (A.filter (fun x => decide (x ∉ B))), h) ∧
      ∀ L : List T, (firstOccurrences L).Nodup ∧ (∀ x, x ∈ firstOccurrences L ↔ x ∈ L) ∧
        ∀ x ∈ L, ∀ y ∈ L, ((firstOccurrences L).indexOf x < (firstOccurrences L).indexOf y ↔
          L.indexOf x < L.indexOf y) := by
  refine ⟨?_, ?_, ?_, firstOccurrences_spec⟩
  · simp [Exec.bind, firstOccurrences,
      Range.Union_spec ptr_lawful ptr_lawful (From A) (From B) (From_run A h) (From_run B h),
      ofData_toVector]
  · simp [Exec.bind, firstOccurrences,
      Range.Intersect_spec ptr_lawful ptr_lawful (From A) (From B) (From_run B h)
        (From_run A h), ofData_toVector]
  · simp [Exec.bind, firstOccurrences,
      Range.Except_spec ptr_lawful ptr_lawful (From A) (From B) (From_run B h) (From_run A h),
      ofData_toVector]

theorem distinctFrom_all_seen (s : List T) : ∀ L : List T, (∀ x ∈ L, x ∈ s) →
    distinctFrom s L = []
  | [], _ => rfl
  | x :: xs, hall => by
    have hx : x ∈ s := hall x (List.mem_cons_self _ _)
    simp only [distinctFrom, hx, if_true]
    exact distinctFrom_all_seen s xs (fun y hy => hall y (List.mem_cons_of_mem _ hy))

/-- Two traversals of one `From(S).Distinct()` query, one after the other: the first
yields the first occurrences, the second only the first element of `S`, because the
`seen` set the copies of `begin()` share is full by then. -/
theorem distinct_second_traversal (S : List T) (h : H) (sets : SeenHeap T) :
    ∃ q st1 st2 st3, (From S).Distinct Ptr.ops (h, sets) = .ok (q, st1) ∧
      q.Aggregate (DistinctIterator.ops Ptr.ops) [] (fun v x => v ++ [x]) st1
        = .ok (firstOccurrences S, st2) ∧
      q.Aggregate (DistinctIterator.ops Ptr.ops) [] (fun v x => v ++ [x]) st2
        = .ok (S.take 1, st3) := by
  obtain ⟨c1, h1, hq, hrun⟩ :=
    Range.Distinct_spec ptr_lawful (From S) sets (From_run S h) (by simp [Ptr.ops])
  have hs := hrun.store_eq ptr_storeFree
  subst hs
  have hcell : (sets ++ [S.take 1] ++ [[]])[sets.length]? = some (S.take 1) := by
    rw [List.getElem?_append_left (by simp)]
    exact List.getElem?_concat_length sets _
  have run1 := distinct_rest_run ptr_lawful (From S).end sets.length
    ⟨(From S).end, (From S).end, sets.length + 1⟩ rfl h S.length S (Nat.le_refl _) c1 h _ _
    hcell hrun
  have hcell2 := getElem?_set_of_some (sets ++ [S.take 1] ++ [[]]) sets.length (S.take 1)
    (seenAfter (S.take 1) S.tail) hcell
  have run2 := distinct_rest_run ptr_lawful (From S).end sets.length
    ⟨(From S).end, (From S).end, sets.length + 1⟩ rfl h S.length S (Nat.le_refl _) c1 h _ _
    hcell2 hrun
  refine ⟨_, _,
    (h, (sets ++ [S.take 1] ++ [[]]).set sets.length (seenAfter (S.take 1) S.tail)),
    (h, ((sets ++ [S.take 1] ++ [[]]).set sets.length (seenAfter (S.take 1) S.tail)).set
      sets.length (seenAfter (seenAfter (S.take 1) S.tail) S.tail)), hq, ?_, ?_⟩
  · rw [Range.Aggregate]
    simp only [Range.begin, Range.end, Range.ofIterators] at run1 ⊢
    rw [forEach_run (distinct_lawful ptr_lawful) run1, foldl_push]
    cases S <;> simp [firstOccurrences, distinctFrom]
  · rw [Range.Aggregate]
    simp only [Range.begin, Range.end, Range.ofIterators] at run2 ⊢
    rw [forEach_run (distinct_lawful ptr_lawful) run2, foldl_push]
    cases S with
    | nil => simp
    | cons y ys =>
      have : distinctFrom (seenAfter [y] ys) ys = [] :=
        distinctFrom_all_seen _ ys (fun x hx => (mem_seenAfter ys [y] x).mpr (Or.inr hx))
      simp [this]

end

/-- C20. On `From([1, 2]).Distinct()`, calling `Count()` twice returns 2 and then 1:
the second traversal starts from a copy of `begin()` whose shared `seen` set the first
traversal has filled, so it skips the value 2. -/
theorem distinct_count_twice_differs :
    ((From [1, 2]).Distinct Ptr.ops).bind
        (fun q => (q.Count (DistinctIterator.ops Ptr.ops)).bind
          (fun n => (q.Count (DistinctIterator.ops Ptr.ops)).bind
            (fun m st => .ok ((n, m), st)))) ((), [])
      = .ok ((2, 1), ((), [[2, 1], []])) := by
  rfl

/-- A dereference of a pointer faults only at or beyond the end of its block. -/
theorem ptr_deref_fault {H T : Type} (p : Ptr T) (f : Fault)
    (hf : (Ptr.ops : IterOps H (Ptr T) T).deref p = .error f) :
    f = .undefinedBehaviour ∧ p.buf.length ≤ p.pos := by
  simp only [Ptr.ops] at hf
  split at hf
  · cases hf
  · rename_i hnone
    cases hf
    exact ⟨rfl, List.getElem?_eq_none_iff.mp hnone⟩

/-- An increment of a pointer faults only at or beyond the end of its block. -/
theorem ptr_incr_fault {H T : Type} (p : Ptr T) (h : H) (f : Fault)
    (hf : (Ptr.ops : IterOps H (Ptr T) T).incr p h = .error f) :
    f = .undefinedBehaviour ∧ p.buf.length ≤ p.pos := by
  simp only [Ptr.ops] at hf
  split at hf
  · cases hf
  · rename_i hlt
    cases hf
    exact ⟨rfl, Nat.le_of_not_lt hlt⟩

/-- C21. On the query `q = From([1, 2]).Distinct()` the operators do use a cursor that
is at the end position.  `Last()`: after `++next`, the loop `while (next != end())`
leaves `it` equal to `end()` (offset 2 of the two-element block), and `*it` then
dereferences it; `LastOrDefault()` runs the same steps.  `Skip(2)` and `Take(2)`:
`std::distance` returns 2, the first `++` of `std::advance` already reaches `end()`,
and the second `++` advances a cursor that is at the end.  In each case the evaluation
ends in undefined behaviour. -/
theorem distinct_last_skip_take_use_end_cursor :
    ∃ q st, (From [1, 2]).Distinct Ptr.ops ((), []) = .ok (q, st) ∧
      q.end.current.pos = 2 ∧
      (∃ next st1 it st2,
        (DistinctIterator.ops Ptr.ops).incr q.begin st = .ok (next, st1) ∧
        lastLoop (DistinctIterator.ops Ptr.ops) q.end
          ((DistinctIterator.ops Ptr.ops : IterOps (Unit × SeenHeap Nat) _ Nat).rem next + 1)
          q.begin next st1 = .ok (it, st2) ∧
        it.current.pos = 2 ∧
        (DistinctIterator.ops Ptr.ops : IterOps (Unit × SeenHeap Nat) _ Nat).eq it q.end = true ∧
        (DistinctIterator.ops Ptr.ops : IterOps (Unit × SeenHeap Nat) _ Nat).deref it =
          .error .undefinedBehaviour) ∧
      q.Last (DistinctIterator.ops Ptr.ops) st = .error .undefinedBehaviour ∧
      q.LastOrDefault (DistinctIterator.ops Ptr.ops) st = .error .undefinedBehaviour ∧
      (∃ st1 it st2,
        distance (DistinctIterator.ops Ptr.ops) q.begin q.end st = .ok (2, st1) ∧
        (DistinctIterator.ops Ptr.ops).incr q.begin st1 = .ok (it, st2) ∧
        it.current.pos = 2 ∧
        (DistinctIterator.ops Ptr.ops : IterOps (Unit × SeenHeap Nat) _ Nat).eq it q.end = true ∧
        (DistinctIterator.ops Ptr.ops).incr it st2 = .error .undefinedBehaviour) ∧
      q.Skip (DistinctIterator.ops Ptr.ops) 2 st = .error .undefinedBehaviour ∧
      q.Take (DistinctIterator.ops Ptr.ops) 2 st = .error .undefinedBehaviour :=
  ⟨_, _, rfl, rfl, ⟨_, _, _, _, rfl, rfl, rfl, rfl, rfl⟩, rfl, rfl,
    ⟨_, _, _, rfl, rfl, rfl, rfl, rfl⟩, rfl, rfl⟩

/-! ## Scenarios -/

/-- The scenario `Where(x > 2).ToArray()` over `[1,2,3,4,5]` of the specification. -/
theorem scenario_where_toArray :
    ((From [1, 2, 3, 4, 5]).Where Ptr.ops (fun x => decide (x > 2))).bind
      (fun q => q.ToArray (WhereIterator.ops Ptr.ops)) () = .ok ([3, 4, 5], ()) := by
  rfl

/-- The first demonstration of `examples/main.cpp`: the squares of `1..5`. -/
theorem scenario_select_squares :
    ((From [1, 2, 3, 4, 5]).Select (fun x => x * x)).ToVector (SelectIterator.ops Ptr.ops) ()
      = .ok ([1, 4, 9, 16, 25], ()) := by
  rfl

/-- The scenario `ToMap(id)` over three persons, a person being an id and a name. -/
theorem scenario_toMap :
    (From [(1, "Alice"), (2, "Bob"), (3, "Charlie")]).ToMap Ptr.ops (fun p => p.1) ()
      = .ok ([(1, (1, "Alice")), (2, (2, "Bob")), (3, (3, "Charlie"))], ()) := by
  rfl

/-- A run of `Distinct()` over `[1, 2, 1]`, with the store it leaves: the cell of the
`begin` iterator holds both values, the cell of the `end` iterator is empty. -/
theorem scenario_distinct :
    ((From [1, 2, 1]).Distinct Ptr.ops).bind
      (fun q => q.Aggregate (DistinctIterator.ops Ptr.ops) [] (fun v x => v ++ [x])) ((), [])
      = .ok ([1, 2], ((), [[2, 1], []])) := by
  rfl
end LinQ
